import Mathlib

/-!
Verification development for the impact-selection core of `pytest-gitscope`
(`src/pytest_accurate/selector.py`): the module registry `ModulesRegistry`,
the static dependency extractor `list_dependencies`, and the fixed-point
impact selector `select_files`.

Shallow embedding conventions:

* a project-relative file path (`pathlib.Path` relative to the project root)
  is a list of path segments (`Path := List String`);
* the filesystem-plus-parser (`file.read_text()` followed by `ast.parse`)
  is an environment function `Path → Except Unit (List Stmt)`, where `Stmt`
  is the shape of the import statements that `ast.walk` surfaces, and an
  `Except.error` models an unreadable or unparsable file;
* `importlib.util.find_spec`, together with the project-root restriction and
  relativization performed by `ModulesRegistry.get`, is an environment
  function `String → Option Path` (both a `ModuleNotFoundError` and an
  origin outside the project root produce `none` in the source);
* Python `dict`s become association lists (`alookup` / `assocUpd` mirror
  `d.get` / `d[k] = v`); a Python `set` that is only ever membership-tested
  (`changed_files`, `selection`, `explored[t]`) becomes a `Finset`, while a
  set that the source iterates (a dependency set, a frontier `acc`) becomes
  a duplicate-free list built with `List.insert` — Python's set iteration
  order is unspecified but is a fixed function of the set value, and the
  embedding fixes one concrete order;
* the cache-filling mutation in `ModulesRegistry.get` is explicit state
  passing: `get` returns the resolved path together with the updated
  registry, and `select_files` threads the registry through the run;
* the `@cache` memoization decorators are semantically invisible for a pure
  function of an immutable filesystem snapshot and are not modelled.
-/

set_option maxHeartbeats 1000000

/-- A project-root-relative file path, as its list of path segments
(`str(path).split("/")`). -/
abbrev FsPath := List String

/-- First-match association-list lookup, mirroring Python `dict.get` /
`key in dict` on a `dict` whose insertion discipline keeps keys unique. -/
def alookup {κ ν : Type} [DecidableEq κ] (l : List (κ × ν)) (k : κ) : Option ν :=
  (l.find? fun kv => decide (kv.1 = k)).map (·.2)

/-- Python `dict` assignment `d[k] = v`: overwrite the existing binding in
place, otherwise append the new binding at the end (insertion order). -/
def assocUpd {κ ν : Type} [DecidableEq κ] (l : List (κ × ν)) (k : κ) (v : ν) :
    List (κ × ν) :=
  if (l.find? fun kv => decide (kv.1 = k)).isSome then
    l.map fun kv => if kv.1 = k then (k, v) else kv
  else
    l ++ [(k, v)]

/-- Keys of an association list, in order. -/
def keysOf {κ ν : Type} (l : List (κ × ν)) : List κ :=
  l.map Prod.fst

@[simp]
theorem alookup_nil {κ ν : Type} [DecidableEq κ] (k : κ) :
    alookup ([] : List (κ × ν)) k = none := rfl

@[simp]
theorem alookup_cons {κ ν : Type} [DecidableEq κ] (k k' : κ) (v : ν)
    (l : List (κ × ν)) :
    alookup ((k', v) :: l) k = if k' = k then some v else alookup l k := by
  by_cases h : k' = k <;> simp [alookup, List.find?, h]

theorem alookup_isSome_iff_mem_keys {κ ν : Type} [DecidableEq κ]
    (l : List (κ × ν)) (k : κ) :
    (alookup l k).isSome ↔ k ∈ keysOf l := by
  induction l with
  | nil => simp [keysOf]
  | cons kv rest ih =>
    obtain ⟨k', v⟩ := kv
    rw [alookup_cons]
    by_cases h : k' = k
    · subst h
      simp [keysOf]
    · rw [if_neg h]
      simp only [keysOf, List.map_cons, List.mem_cons, ih]
      constructor
      · intro hmem
        exact Or.inr hmem
      · rintro (hmem | hmem)
        · exact absurd hmem.symm h
        · exact hmem

theorem alookup_eq_none_of_not_mem_keys {κ ν : Type} [DecidableEq κ]
    {l : List (κ × ν)} {k : κ} (h : k ∉ keysOf l) : alookup l k = none := by
  by_contra hne
  exact h ((alookup_isSome_iff_mem_keys l k).1 (Option.isSome_iff_ne_none.2 hne))

theorem mem_keys_of_alookup_eq_some {κ ν : Type} [DecidableEq κ]
    {l : List (κ × ν)} {k : κ} {v : ν} (h : alookup l k = some v) :
    k ∈ keysOf l := by
  exact (alookup_isSome_iff_mem_keys l k).1 (by simp [h])

theorem find?_key_isSome_iff_mem_keys {κ ν : Type} [DecidableEq κ]
    (l : List (κ × ν)) (k : κ) :
    (l.find? fun kv => decide (kv.1 = k)).isSome ↔ k ∈ keysOf l := by
  rw [← alookup_isSome_iff_mem_keys]
  simp [alookup]

@[simp]
theorem keysOf_nil {κ ν : Type} : keysOf ([] : List (κ × ν)) = [] := rfl

@[simp]
theorem keysOf_cons {κ ν : Type} (kv : κ × ν) (l : List (κ × ν)) :
    keysOf (kv :: l) = kv.1 :: keysOf l := rfl

@[simp]
theorem keysOf_append {κ ν : Type} (l l' : List (κ × ν)) :
    keysOf (l ++ l') = keysOf l ++ keysOf l' := by
  simp [keysOf]

theorem alookup_overwrite_ne {κ ν : Type} [DecidableEq κ]
    (l : List (κ × ν)) {k k' : κ} (v : ν) (hne : k ≠ k') :
    alookup (l.map fun kv => if kv.1 = k then (k, v) else kv) k' =
      alookup l k' := by
  induction l with
  | nil => rfl
  | cons kv rest ih =>
    obtain ⟨k₀, v₀⟩ := kv
    by_cases h0 : k₀ = k
    · subst h0
      have h1 : k₀ ≠ k' := hne
      rw [List.map_cons,
          show (if (k₀, v₀).1 = k₀ then (k₀, v) else (k₀, v₀)) = (k₀, v) from
            if_pos rfl,
          alookup_cons, if_neg h1, alookup_cons, if_neg h1]
      exact ih
    · simp only [List.map_cons, if_neg h0, alookup_cons]
      by_cases h1 : k₀ = k'
      · rw [if_pos h1, if_pos h1]
      · rw [if_neg h1, if_neg h1]
        exact ih

theorem alookup_overwrite_self {κ ν : Type} [DecidableEq κ]
    (l : List (κ × ν)) (k : κ) (v : ν) :
    alookup (l.map fun kv => if kv.1 = k then (k, v) else kv) k =
      (alookup l k).map fun _ => v := by
  induction l with
  | nil => rfl
  | cons kv rest ih =>
    obtain ⟨k₀, v₀⟩ := kv
    by_cases h0 : k₀ = k
    · subst h0
      simp [alookup_cons]
    · simp only [List.map_cons, if_neg h0, alookup_cons, if_neg h0]
      exact ih

theorem alookup_append_single {κ ν : Type} [DecidableEq κ]
    (l : List (κ × ν)) (k k' : κ) (v : ν) (hk : k ∉ keysOf l) :
    alookup (l ++ [(k, v)]) k' = if k = k' then some v else alookup l k' := by
  induction l with
  | nil =>
    by_cases h : k = k' <;> simp [alookup_cons, h]
  | cons kv rest ih =>
    obtain ⟨k₀, v₀⟩ := kv
    have hk' : k ∉ keysOf rest := fun hc =>
      hk (by rw [keysOf_cons]; exact List.mem_cons_of_mem _ hc)
    have hk0 : k₀ ≠ k := fun hc =>
      hk (by rw [keysOf_cons, hc]; exact List.mem_cons_self _ _)
    by_cases h1 : k₀ = k'
    · subst h1
      have h2 : k ≠ k₀ := fun hc => hk0 hc.symm
      have hL : alookup ((k₀, v₀) :: (rest ++ [(k, v)])) k₀ = some v₀ := by
        rw [alookup_cons, if_pos rfl]
      have hR : alookup ((k₀, v₀) :: rest) k₀ = some v₀ := by
        rw [alookup_cons, if_pos rfl]
      rw [List.cons_append, hL, if_neg h2, hR]
    · simp only [List.cons_append, alookup_cons, if_neg h1]
      exact ih hk'

theorem alookup_assocUpd {κ ν : Type} [DecidableEq κ]
    (l : List (κ × ν)) (k k' : κ) (v : ν) :
    alookup (assocUpd l k v) k' = if k = k' then some v else alookup l k' := by
  unfold assocUpd
  by_cases hmem : (l.find? fun kv => decide (kv.1 = k)).isSome
  · rw [if_pos hmem]
    by_cases h : k = k'
    · subst h
      rw [if_pos rfl, alookup_overwrite_self]
      have hk : (alookup l k).isSome := by
        simpa [alookup] using hmem
      obtain ⟨w, hw⟩ := Option.isSome_iff_exists.1 hk
      rw [hw]
      rfl
    · rw [if_neg h]
      exact alookup_overwrite_ne l v h
  · rw [if_neg hmem]
    have hk : k ∉ keysOf l := fun hc =>
      hmem ((find?_key_isSome_iff_mem_keys l k).2 hc)
    exact alookup_append_single l k k' v hk

theorem keysOf_assocUpd {κ ν : Type} [DecidableEq κ]
    (l : List (κ × ν)) (k : κ) (v : ν) :
    keysOf (assocUpd l k v) = keysOf l ∨
      keysOf (assocUpd l k v) = keysOf l ++ [k] := by
  unfold assocUpd
  by_cases hmem : (l.find? fun kv => decide (kv.1 = k)).isSome
  · left
    rw [if_pos hmem]
    simp only [keysOf, List.map_map]
    apply List.map_congr_left
    intro kv _
    by_cases h : kv.1 = k <;> simp [h]
  · right
    rw [if_neg hmem]
    simp

theorem mem_keysOf_assocUpd {κ ν : Type} [DecidableEq κ]
    {l : List (κ × ν)} {k k' : κ} {v : ν}
    (h : k' ∈ keysOf (assocUpd l k v)) : k' ∈ keysOf l ∨ k' = k := by
  rcases keysOf_assocUpd l k v with he | he <;> rw [he] at h
  · exact Or.inl h
  · rcases List.mem_append.1 h with h | h
    · exact Or.inl h
    · exact Or.inr (List.mem_singleton.1 h)

theorem keysOf_assocUpd_nodup {κ ν : Type} [DecidableEq κ]
    {l : List (κ × ν)} (k : κ) (v : ν) (h : (keysOf l).Nodup) :
    (keysOf (assocUpd l k v)).Nodup := by
  unfold assocUpd
  by_cases hmem : (l.find? fun kv => decide (kv.1 = k)).isSome
  · rw [if_pos hmem]
    have he : keysOf (l.map fun kv => if kv.1 = k then (k, v) else kv) =
        keysOf l := by
      simp only [keysOf, List.map_map]
      apply List.map_congr_left
      intro kv _
      by_cases hx : kv.1 = k <;> simp [hx]
    rw [he]
    exact h
  · rw [if_neg hmem]
    have hk : k ∉ keysOf l := fun hc =>
      hmem ((find?_key_isSome_iff_mem_keys l k).2 hc)
    rw [keysOf_append, List.nodup_append]
    refine ⟨h, by simp, ?_⟩
    intro a ha hb
    simp only [keysOf_cons, keysOf_nil, List.mem_singleton] at hb
    subst hb
    exact hk ha

/-! ### Dependency extractor (`list_dependencies`, selector.py lines 127-161) -/

/-- The suffix-stripping of `pathlib.PurePath.with_suffix("")` applied to one
path component: drop `name[i:]` where `i` is the last index of `'.'` in the
name, provided `0 < i < len(name) - 1` (pathlib's definition of a suffix);
otherwise the name has no suffix and is unchanged. -/
def stripExt (s : String) : String :=
  match ((List.range s.toList.length).filter fun i =>
      decide (s.toList.get? i = some '.')).getLast? with
  | some i => if 0 < i ∧ i + 1 < s.toList.length then String.mk (s.toList.take i) else s
  | none => s

/-- `str(file.with_suffix("")).split("/")`: the segments of the path with the
final component's suffix stripped.  (For the degenerate empty path, Python's
`str(Path(""))` is `"."`; this cannot arise for a real project file.) -/
def stripExtLast : List String → List String
  | [] => ["."]
  | [s] => [stripExt s]
  | s :: rest => s :: stripExtLast rest

/-- The `parts` list of `list_dependencies` (lines 129-133): the declaring
package context split on `"."` when a non-empty package string is given
(Python truthiness: `if package:`), otherwise guessed from the file's own
path segments. -/
def contextParts (file : FsPath) (package : Option String) : List String :=
  match package with
  | some p => if p = "" then stripExtLast file else p.splitOn "."
  | none => stripExtLast file

/-- The import-bearing statements that `ast.walk` surfaces to the `match`
at lines 139-155: `ast.Import(names)` and `ast.ImportFrom(module, names,
level)` with `module` either a string or `None`. -/
inductive Stmt : Type
  | imp (names : List String)
  | fromImp (module? : Option String) (names : List String) (level : Nat)
deriving DecidableEq

/-- How `list_dependencies` can fail: an unreadable/unparsable source file
(`file.read_text()` / `ast.parse` raising, line 136-137), or the
`assert len(parts) >= level` internal invariant violation (lines 145, 152). -/
inductive ExtractError : Type
  | unreadable
  | assertionError
deriving DecidableEq

/-- Python `parts[-level:]`: the last `level` elements — except that a slice
`[-0:]` is the whole list. -/
def lastSegs (parts : List String) (level : Nat) : List String :=
  if level = 0 then parts else parts.drop (parts.length - level)

/-- The dotted identifiers contributed by one statement (the body of the
`match node` at lines 139-155), or an assertion failure when a relative
import's level exceeds the package context. -/
def stmtDeps (parts : List String) : Stmt → Except ExtractError (List String)
  | .imp names => .ok names
  | .fromImp (some module) names level =>
      if level ≠ 0 then
        if parts.length ≥ level then
          .ok (names.map fun n =>
            String.intercalate "." (lastSegs parts level) ++ "." ++ module ++ "." ++ n)
        else .error .assertionError
      else .ok (names.map fun n => module ++ "." ++ n)
  | .fromImp none names level =>
      if parts.length ≥ level then
        .ok (names.map fun n =>
          String.intercalate "." (lastSegs parts level) ++ "." ++ n)
      else .error .assertionError

/-- Sequential processing of the walked statements, accumulating the
dependency set (as a dedup list) and propagating the first assertion
failure. -/
def collectDeps (parts : List String) : List Stmt → Except ExtractError (List String)
  | [] => .ok []
  | stmt :: rest =>
    match stmtDeps parts stmt with
    | .error e => .error e
    | .ok ns =>
      match collectDeps parts rest with
      | .error e => .error e
      | .ok s => .ok (ns.union s)

/-- One step of `dependency.rpartition(".")`: the text before the last `'.'`
of the reversed character list, or `none` when no dot remains (the loop
guard `while "." in dependency`). -/
def beforeLastDotRev : List Char → Option (List Char)
  | [] => none
  | c :: rest => if c = '.' then some rest else beforeLastDotRev rest

theorem beforeLastDotRev_length :
    ∀ {l t : List Char}, beforeLastDotRev l = some t → t.length < l.length := by
  intro l
  induction l with
  | nil => intro t h; simp [beforeLastDotRev] at h
  | cons c rest ih =>
    intro t h
    by_cases hc : c = '.'
    · simp [beforeLastDotRev, hc] at h
      subst h
      simp [Nat.lt_succ_self]
    · simp [beforeLastDotRev, hc] at h
      exact Nat.lt_trans (ih h) (Nat.lt_succ_self _)

/-- `dependency.rpartition(".")[0]` under the guard `"." in dependency`:
`some` of the text before the last dot, `none` when the string has no dot. -/
def rpartitionPre (s : String) : Option String :=
  (beforeLastDotRev s.toList.reverse).map fun t => String.mk t.reverse

theorem rpartitionPre_length {s t : String} (h : rpartitionPre s = some t) :
    t.length < s.length := by
  unfold rpartitionPre at h
  cases hb : beforeLastDotRev s.toList.reverse with
  | none => rw [hb] at h; simp at h
  | some u =>
    rw [hb] at h
    simp only [Option.map_some'] at h
    have hlen := beforeLastDotRev_length hb
    rw [List.length_reverse] at hlen
    have h1 : t.length = u.length := by
      have ht : t = String.mk u.reverse := (Option.some.inj h).symm
      rw [ht]
      show u.reverse.length = u.length
      exact List.length_reverse u
    have h2 : s.toList.length = s.length := rfl
    omega

/-- One fuel unit per iteration of the `while "." in dependency` loop at
lines 157-160: repeatedly replace the identifier by the part before its last
dot, adding each result.  `s.length` units of fuel always suffice because
each `rpartition` step strictly shortens the string
(`rpartitionPre_length`); the structural recursion keeps the definition
kernel-computable. -/
def prefixClosureAux : Nat → String → List String
  | 0, _ => []
  | n + 1, s =>
    match rpartitionPre s with
    | none => []
    | some t => (prefixClosureAux n t).insert t

/-- The ancestor-prefix closure computed by the `while "." in dependency`
loop at lines 157-160. -/
def prefixClosure (s : String) : List String :=
  prefixClosureAux s.length s

theorem rpartitionPre_len_zero {s : String} (h : s.length = 0) :
    rpartitionPre s = none := by
  have : s.toList = [] := by
    have h2 : s.toList.length = 0 := h
    exact List.length_eq_zero.1 h2
  unfold rpartitionPre
  rw [this]
  rfl

theorem prefixClosureAux_congr :
    ∀ (n m : Nat) (s : String), s.length ≤ n → s.length ≤ m →
      prefixClosureAux n s = prefixClosureAux m s := by
  intro n
  induction n with
  | zero =>
    intro m s hn hm
    have h0 : s.length = 0 := Nat.le_zero.1 hn
    cases m with
    | zero => rfl
    | succ k =>
      show prefixClosureAux 0 s = prefixClosureAux (k + 1) s
      simp only [prefixClosureAux, rpartitionPre_len_zero h0]
  | succ n ih =>
    intro m s hn hm
    cases m with
    | zero =>
      have h0 : s.length = 0 := Nat.le_zero.1 hm
      simp only [prefixClosureAux, rpartitionPre_len_zero h0]
    | succ k =>
      simp only [prefixClosureAux]
      cases hr : rpartitionPre s with
      | none => rfl
      | some t =>
        have hlt := rpartitionPre_length hr
        show List.insert t (prefixClosureAux n t) =
          List.insert t (prefixClosureAux k t)
        rw [ih k t (by omega) (by omega)]

/-- `list_dependencies(file, package)` (lines 127-161): compute the package
context, statically parse the file (an unreadable or unparsable file is a
hard error), collect the identifier contributed by every import statement,
then close the set under ancestor dotted prefixes.  The filesystem/parser is
the environment argument `fs`; the `@cache` decorator is invisible for a
pure function of the immutable snapshot. -/
def list_dependencies (fs : FsPath → Except Unit (List Stmt)) (file : FsPath)
    (package : Option String) : Except ExtractError (List String) :=
  let parts := contextParts file package
  match fs file with
  | .error _ => .error .unreadable
  | .ok stmts =>
    match collectDeps parts stmts with
    | .error e => .error e
    | .ok deps => .ok (deps.union (deps.map prefixClosure).flatten)

/-! ### Module registry (`ModulesRegistry`, selector.py lines 13-60) -/

/-- The registry: the forward cache `by_fullnames` (module name → optional
project-relative file) and the `inverse` map built from it once by
`__post_init__`.  Both `dict`s are association lists. -/
structure ModulesRegistry where
  by_fullnames : List (String × Option FsPath)
  inverse : List (FsPath × String)
deriving DecidableEq

/-- `ModulesRegistry(root=..., by_fullnames=...)` followed by
`__post_init__` (lines 33-36): the inverse dict comprehension
`{val: key for key, val in by_fullnames.items() if val is not None}` keeps
the **last** binding for a duplicated file, which with first-match lookup is
the reversed filtered list. -/
def mkRegistry (by_fullnames : List (String × Option FsPath)) : ModulesRegistry :=
  { by_fullnames := by_fullnames
    inverse :=
      (by_fullnames.filterMap fun kv => kv.2.map fun p => (p, kv.1)).reverse }

/-- `get_name` (lines 38-39): pure inverse lookup. -/
def ModulesRegistry.get_name (reg : ModulesRegistry) (file : FsPath) :
    Option String :=
  alookup reg.inverse file

/-- `get` (lines 41-60): return the cached resolution when the name is a key
of `by_fullnames`; otherwise consult `find_spec` (the environment function
`findSpec`, which already folds in the `ModuleNotFoundError` → `None`, the
project-root restriction, and the relativization — all of which produce the
same cached value) and cache the outcome.  The cache-fill mutation is the
returned registry; the key is fresh here, so the `dict` entry is appended. -/
def ModulesRegistry.get (findSpec : String → Option FsPath)
    (reg : ModulesRegistry) (name : String) :
    Option FsPath × ModulesRegistry :=
  match alookup reg.by_fullnames name with
  | some cached => (cached, reg)
  | none =>
    let file := findSpec name
    (file, { reg with by_fullnames := reg.by_fullnames ++ [(name, file)] })

/-- The environment a selection run executes in: the parsed filesystem
snapshot and the `find_spec`-based fallback resolution. -/
structure Env where
  fs : FsPath → Except Unit (List Stmt)
  findSpec : String → Option FsPath

/-- The resolution a registry state denotes: the cached value when present,
the fallback otherwise.  `ModulesRegistry.get` returns exactly this and
never changes it for any name (see `resolve_get_snd`). -/
def resolve (env : Env) (reg : ModulesRegistry) (n : String) : Option FsPath :=
  match alookup reg.by_fullnames n with
  | some v => v
  | none => env.findSpec n

theorem get_fst (env : Env) (reg : ModulesRegistry) (n : String) :
    (ModulesRegistry.get env.findSpec reg n).1 = resolve env reg n := by
  unfold ModulesRegistry.get resolve
  cases alookup reg.by_fullnames n <;> rfl

theorem not_mem_keys_of_alookup_eq_none {κ ν : Type} [DecidableEq κ]
    {l : List (κ × ν)} {k : κ} (h : alookup l k = none) : k ∉ keysOf l := by
  intro hmem
  have := (alookup_isSome_iff_mem_keys l k).2 hmem
  rw [h] at this
  exact absurd this (by simp)

theorem resolve_get_snd (env : Env) (reg : ModulesRegistry) (n m : String) :
    resolve env (ModulesRegistry.get env.findSpec reg n).2 m =
      resolve env reg m := by
  unfold ModulesRegistry.get
  cases hc : alookup reg.by_fullnames n with
  | some v => rfl
  | none =>
    unfold resolve
    simp only
    rw [alookup_append_single _ n m _ (not_mem_keys_of_alookup_eq_none hc)]
    by_cases h : n = m
    · subst h
      rw [if_pos rfl, hc]
    · rw [if_neg h]

theorem inverse_get_snd (env : Env) (reg : ModulesRegistry) (n : String) :
    (ModulesRegistry.get env.findSpec reg n).2.inverse = reg.inverse := by
  unfold ModulesRegistry.get
  cases alookup reg.by_fullnames n <;> rfl

/-- A registry state reached from `reg0` by cache fills only: it denotes the
same resolution function and the same (never rebuilt) inverse map. -/
def Stable (env : Env) (reg0 reg : ModulesRegistry) : Prop :=
  (∀ n, resolve env reg n = resolve env reg0 n) ∧ reg.inverse = reg0.inverse

theorem stable_rfl (env : Env) (reg : ModulesRegistry) : Stable env reg reg :=
  ⟨fun _ => rfl, rfl⟩

theorem stable_get (env : Env) {reg0 reg : ModulesRegistry}
    (h : Stable env reg0 reg) (n : String) :
    (ModulesRegistry.get env.findSpec reg n).1 = resolve env reg0 n ∧
      Stable env reg0 (ModulesRegistry.get env.findSpec reg n).2 := by
  constructor
  · rw [get_fst]
    exact h.1 n
  · constructor
    · intro m
      rw [resolve_get_snd]
      exact h.1 m
    · rw [inverse_get_snd]
      exact h.2

theorem stable_get_name (env : Env) {reg0 reg : ModulesRegistry}
    (h : Stable env reg0 reg) (f : FsPath) :
    reg.get_name f = reg0.get_name f := by
  unfold ModulesRegistry.get_name
  rw [h.2]

/-! ### Impact selector (`select_files`, selector.py lines 63-124)

The faithful embedding threads the registry state (`scanDeps`, `step1`,
`scanSubs`, `scanFrontier`, `roundStep`, `loop`, `select_files`).  Because
`ModulesRegistry.get` always returns `resolve env reg0` of the starting
registry `reg0` and never changes it (`stable_get`), each threaded function
is proved equal to a pure twin (suffix `P`) that resolves names through a
fixed function `r` — all behavioural theorems are proved on the twins and
transported through `select_files_eq`.

The dead mutation `target_files.discard(target_file)` (lines 83 and 107) is
dropped: after line 71 the set `target_files` is never read again, so the
discards have no observable effect.
-/

/-- A target's frontier: the set of `(module-name, file)` edges recorded for
deeper expansion, as a dedup list (the source iterates it). -/
abbrev Frontier := List (String × FsPath)

/-- Pure twin of the step-1 inner loop (lines 80-87): scan the extracted
dependency names of a target; a name resolving to a changed file selects the
target and breaks, a name resolving to an unchanged project file is added to
the frontier accumulator, an unresolved name is dropped. -/
def scanDepsP (changed : Finset FsPath) (r : String → Option FsPath) :
    List String → Frontier → Bool × Frontier
  | [], acc => (false, acc)
  | n :: rest, acc =>
    match r n with
    | some f =>
      if f ∈ changed then (true, acc)
      else scanDepsP changed r rest (acc.insert (n, f))
    | none => scanDepsP changed r rest acc

/-- Pure twin of step 1 (lines 77-90): process each remaining target,
selecting it on a changed direct dependency and recording its frontier
(`queued[target_file] = acc` runs even after the selecting `break`). -/
def step1P (fs : FsPath → Except Unit (List Stmt)) (changed : Finset FsPath)
    (r : String → Option FsPath) (gname : FsPath → Option String) :
    List FsPath → Finset FsPath → List (FsPath × Frontier) →
    Except ExtractError (Finset FsPath × List (FsPath × Frontier))
  | [], sel, q => .ok (sel, q)
  | t :: rest, sel, q =>
    match list_dependencies fs t (gname t) with
    | .error e => .error e
    | .ok deps =>
      let pr := scanDepsP changed r deps []
      step1P fs changed r gname rest
        (if pr.1 then insert t sel else sel)
        (if pr.2 ≠ [] then assocUpd q t pr.2 else q)

/-- Pure twin of the innermost loop of a round (lines 105-113): scan the
imports of one frontier file; a changed resolution selects the target and
breaks, an explored resolution is skipped, a fresh project resolution is
added to the next frontier. -/
def scanSubsP (changed : Finset FsPath) (r : String → Option FsPath)
    (expl : Finset FsPath) :
    List String → Frontier → Bool × Frontier
  | [], acc => (false, acc)
  | m :: rest, acc =>
    match r m with
    | some f =>
      if f ∈ changed then (true, acc)
      else if f ∈ expl then scanSubsP changed r expl rest acc
      else scanSubsP changed r expl rest (acc.insert (m, f))
    | none => scanSubsP changed r expl rest acc

/-- Pure twin of one target's frontier expansion in a round (lines
100-114): for each unexplored `(name, file)` edge, extract the file's
imports (propagating extraction errors), scan them, and mark the edge's
file explored; the outer loop keeps running after a selection, so `hit`
is sticky and the explored set keeps growing. -/
def scanFrontierP (fs : FsPath → Except Unit (List Stmt))
    (changed : Finset FsPath) (r : String → Option FsPath) :
    List (String × FsPath) → Finset FsPath → Bool → Frontier →
    Except ExtractError (Bool × Frontier × Finset FsPath)
  | [], expl, hit, acc => .ok (hit, acc, expl)
  | (n, f) :: rest, expl, hit, acc =>
    if f ∈ expl then scanFrontierP fs changed r rest expl hit acc
    else
      match list_dependencies fs f (some n) with
      | .error e => .error e
      | .ok subs =>
        let pr := scanSubsP changed r expl subs acc
        scanFrontierP fs changed r rest (insert f expl) (hit || pr.1) pr.2

/-- Pure twin of one round of the fixed-point loop (lines 94-117): process
every queued target (skipping ones already selected — possible because step
1 queues a target it also selects), and queue the accumulated new edges for
targets that are still unselected (`if acc and target_file not in
selection`). -/
def roundStepP (fs : FsPath → Except Unit (List Stmt))
    (changed : Finset FsPath) (r : String → Option FsPath) :
    List (FsPath × Frontier) → Finset FsPath → (FsPath → Finset FsPath) →
    List (FsPath × Frontier) →
    Except ExtractError
      (Finset FsPath × (FsPath → Finset FsPath) × List (FsPath × Frontier))
  | [], sel, expl, nq => .ok (sel, expl, nq)
  | (t, deps) :: rest, sel, expl, nq =>
    if t ∈ sel then roundStepP fs changed r rest sel expl nq
    else
      match scanFrontierP fs changed r deps (expl t) false [] with
      | .error e => .error e
      | .ok (h, acc, e') =>
        roundStepP fs changed r rest
          (if h then insert t sel else sel)
          (fun x => if x = t then e' else expl x)
          (if acc ≠ [] ∧ ¬h then assocUpd nq t acc else nq)

/-- Errors a whole selection run can surface: a propagated extraction error,
or the `RecursionError("Too many recursion")` of line 122. -/
inductive SelectError : Type
  | extract (e : ExtractError)
  | recursionError
deriving DecidableEq

/-- Pure twin of the `for _ in range(100)` loop with its `else` clause
(lines 93-122): run rounds until the freshly built queue is empty (the
`break`), or fail with `RecursionError` when the fuel is exhausted. -/
def loopP (fs : FsPath → Except Unit (List Stmt)) (changed : Finset FsPath)
    (r : String → Option FsPath) :
    Nat → Finset FsPath → (FsPath → Finset FsPath) →
    List (FsPath × Frontier) → Except SelectError (Finset FsPath)
  | 0, _, _, _ => .error .recursionError
  | fuel + 1, sel, expl, q =>
    match roundStepP fs changed r q sel expl [] with
    | .error e => .error (.extract e)
    | .ok (sel', expl', q') =>
      if q'.isEmpty then .ok sel'
      else loopP fs changed r fuel sel' expl' q'

/-- Pure twin of `select_files` (lines 63-124): step 0 takes the direct
hits, step 1 expands each remaining target once, and the loop iterates to
the fixed point with `explored` starting empty. -/
def select_filesP (fs : FsPath → Except Unit (List Stmt))
    (changed : Finset FsPath) (r : String → Option FsPath)
    (gname : FsPath → Option String) (target_files : List FsPath) :
    Except SelectError (Finset FsPath) :=
  let sel0 : Finset FsPath := (target_files.filter fun t => t ∈ changed).toFinset
  let targets : List FsPath := target_files.filter fun t => t ∉ sel0
  if targets.isEmpty then .ok sel0
  else
    match step1P fs changed r gname targets sel0 [] with
    | .error e => .error (.extract e)
    | .ok (sel1, q1) => loopP fs changed r 100 sel1 (fun _ => ∅) q1

/-- Threaded step-1 inner loop (lines 80-87), with the registry cache fills
of `modules_registry.get(dep_fullname)` made explicit. -/
def scanDeps (env : Env) (changed : Finset FsPath) :
    ModulesRegistry → List String → Frontier →
    (Bool × Frontier) × ModulesRegistry
  | reg, [], acc => ((false, acc), reg)
  | reg, n :: rest, acc =>
    match ModulesRegistry.get env.findSpec reg n with
    | (some f, reg') =>
      if f ∈ changed then ((true, acc), reg')
      else scanDeps env changed reg' rest (acc.insert (n, f))
    | (none, reg') => scanDeps env changed reg' rest acc

/-- Threaded step 1 (lines 77-90); the package context comes from
`modules_registry.get_name(target_file)` on the current registry state. -/
def step1 (env : Env) (changed : Finset FsPath) :
    ModulesRegistry → List FsPath → Finset FsPath → List (FsPath × Frontier) →
    Except ExtractError
      ((Finset FsPath × List (FsPath × Frontier)) × ModulesRegistry)
  | reg, [], sel, q => .ok ((sel, q), reg)
  | reg, t :: rest, sel, q =>
    match list_dependencies env.fs t (reg.get_name t) with
    | .error e => .error e
    | .ok deps =>
      let pr := scanDeps env changed reg deps []
      step1 env changed pr.2 rest
        (if pr.1.1 then insert t sel else sel)
        (if pr.1.2 ≠ [] then assocUpd q t pr.1.2 else q)

/-- Threaded innermost loop of a round (lines 105-113). -/
def scanSubs (env : Env) (changed : Finset FsPath) (expl : Finset FsPath) :
    ModulesRegistry → List String → Frontier →
    (Bool × Frontier) × ModulesRegistry
  | reg, [], acc => ((false, acc), reg)
  | reg, m :: rest, acc =>
    match ModulesRegistry.get env.findSpec reg m with
    | (some f, reg') =>
      if f ∈ changed then ((true, acc), reg')
      else if f ∈ expl then scanSubs env changed expl reg' rest acc
      else scanSubs env changed expl reg' rest (acc.insert (m, f))
    | (none, reg') => scanSubs env changed expl reg' rest acc

/-- Threaded frontier expansion of one target in a round (lines 100-114). -/
def scanFrontier (env : Env) (changed : Finset FsPath) :
    ModulesRegistry → List (String × FsPath) → Finset FsPath → Bool → Frontier →
    Except ExtractError
      ((Bool × Frontier × Finset FsPath) × ModulesRegistry)
  | reg, [], expl, hit, acc => .ok ((hit, acc, expl), reg)
  | reg, (n, f) :: rest, expl, hit, acc =>
    if f ∈ expl then scanFrontier env changed reg rest expl hit acc
    else
      match list_dependencies env.fs f (some n) with
      | .error e => .error e
      | .ok subs =>
        let pr := scanSubs env changed expl reg subs acc
        scanFrontier env changed pr.2 rest (insert f expl) (hit || pr.1.1) pr.1.2

/-- Threaded round (lines 94-117). -/
def roundStep (env : Env) (changed : Finset FsPath) :
    ModulesRegistry → List (FsPath × Frontier) → Finset FsPath →
    (FsPath → Finset FsPath) → List (FsPath × Frontier) →
    Except ExtractError
      ((Finset FsPath × (FsPath → Finset FsPath) × List (FsPath × Frontier)) ×
        ModulesRegistry)
  | reg, [], sel, expl, nq => .ok ((sel, expl, nq), reg)
  | reg, (t, deps) :: rest, sel, expl, nq =>
    if t ∈ sel then roundStep env changed reg rest sel expl nq
    else
      match scanFrontier env changed reg deps (expl t) false [] with
      | .error e => .error e
      | .ok ((h, acc, e'), reg') =>
        roundStep env changed reg' rest
          (if h then insert t sel else sel)
          (fun x => if x = t then e' else expl x)
          (if acc ≠ [] ∧ ¬h then assocUpd nq t acc else nq)

/-- Threaded `for _ in range(100)` loop (lines 93-122). -/
def loop (env : Env) (changed : Finset FsPath) :
    Nat → ModulesRegistry → Finset FsPath → (FsPath → Finset FsPath) →
    List (FsPath × Frontier) → Except SelectError (Finset FsPath)
  | 0, _, _, _, _ => .error .recursionError
  | fuel + 1, reg, sel, expl, q =>
    match roundStep env changed reg q sel expl [] with
    | .error e => .error (.extract e)
    | .ok ((sel', expl', q'), reg') =>
      if q'.isEmpty then .ok sel'
      else loop env changed fuel reg' sel' expl' q'

/-- The faithful embedding of `select_files(target_files, changed_files,
modules_registry)` (lines 63-124).  The Python `set` argument
`target_files` is received as a list fixing the (unspecified) set iteration
order; `changed_files` is only ever membership-tested and stays a
`Finset`. -/
def select_files (env : Env) (target_files : List FsPath)
    (changed_files : Finset FsPath) (reg : ModulesRegistry) :
    Except SelectError (Finset FsPath) :=
  let selection : Finset FsPath :=
    (target_files.filter fun t => t ∈ changed_files).toFinset
  let targets : List FsPath := target_files.filter fun t => t ∉ selection
  if targets.isEmpty then .ok selection
  else
    match step1 env changed_files reg targets selection [] with
    | .error e => .error (.extract e)
    | .ok ((sel1, q1), reg1) =>
      loop env changed_files 100 reg1 sel1 (fun _ => ∅) q1

/-! ### The threaded selector equals its pure twin -/

theorem scanDeps_sim (env : Env) (cf : Finset FsPath) {reg0 : ModulesRegistry} :
    ∀ (ns : List String) (reg : ModulesRegistry) (acc : Frontier),
      Stable env reg0 reg →
      (scanDeps env cf reg ns acc).1 = scanDepsP cf (resolve env reg0) ns acc ∧
        Stable env reg0 (scanDeps env cf reg ns acc).2 := by
  intro ns
  induction ns with
  | nil => intro reg acc h; exact ⟨rfl, h⟩
  | cons n rest ih =>
    intro reg acc h
    obtain ⟨hg1, hg2⟩ := stable_get env h n
    rcases hget : ModulesRegistry.get env.findSpec reg n with ⟨v, reg'⟩
    rw [hget] at hg1 hg2
    cases v with
    | some f =>
      simp only [scanDeps, hget, scanDepsP, ← hg1]
      by_cases hc : f ∈ cf
      · simp only [hc, if_true]
        exact ⟨trivial, hg2⟩
      · simp only [hc, if_false]
        exact ih reg' _ hg2
    | none =>
      simp only [scanDeps, hget, scanDepsP, ← hg1]
      exact ih reg' acc hg2

theorem step1_sim (env : Env) (cf : Finset FsPath) {reg0 : ModulesRegistry} :
    ∀ (ts : List FsPath) (reg : ModulesRegistry) (sel : Finset FsPath)
      (q : List (FsPath × Frontier)),
      Stable env reg0 reg →
      (step1 env cf reg ts sel q).map Prod.fst =
          step1P env.fs cf (resolve env reg0) reg0.get_name ts sel q ∧
        ∀ res reg', step1 env cf reg ts sel q = .ok (res, reg') →
          Stable env reg0 reg' := by
  intro ts
  induction ts with
  | nil =>
    intro reg sel q h
    refine ⟨rfl, ?_⟩
    intro res reg' heq
    cases heq
    exact h
  | cons t rest ih =>
    intro reg sel q h
    have hname : reg.get_name t = reg0.get_name t := stable_get_name env h t
    simp only [step1, step1P, hname]
    cases hdep : list_dependencies env.fs t (reg0.get_name t) with
    | error e =>
      refine ⟨rfl, ?_⟩
      intro res reg' heq
      simp at heq
    | ok deps =>
      obtain ⟨hs1, hs2⟩ := scanDeps_sim env cf deps reg [] h
      simp only [hs1]
      exact ih _ _ _ hs2

theorem scanSubs_sim (env : Env) (cf : Finset FsPath) (expl : Finset FsPath)
    {reg0 : ModulesRegistry} :
    ∀ (ms : List String) (reg : ModulesRegistry) (acc : Frontier),
      Stable env reg0 reg →
      (scanSubs env cf expl reg ms acc).1 =
          scanSubsP cf (resolve env reg0) expl ms acc ∧
        Stable env reg0 (scanSubs env cf expl reg ms acc).2 := by
  intro ms
  induction ms with
  | nil => intro reg acc h; exact ⟨rfl, h⟩
  | cons m rest ih =>
    intro reg acc h
    obtain ⟨hg1, hg2⟩ := stable_get env h m
    rcases hget : ModulesRegistry.get env.findSpec reg m with ⟨v, reg'⟩
    rw [hget] at hg1 hg2
    cases v with
    | some f =>
      simp only [scanSubs, hget, scanSubsP, ← hg1]
      by_cases hc : f ∈ cf
      · simp only [hc, if_true]
        exact ⟨trivial, hg2⟩
      · by_cases he : f ∈ expl
        · simp only [hc, if_false, he, if_true]
          exact ih reg' acc hg2
        · simp only [hc, if_false, he]
          exact ih reg' _ hg2
    | none =>
      simp only [scanSubs, hget, scanSubsP, ← hg1]
      exact ih reg' acc hg2

theorem scanFrontier_sim (env : Env) (cf : Finset FsPath)
    {reg0 : ModulesRegistry} :
    ∀ (deps : List (String × FsPath)) (reg : ModulesRegistry)
      (expl : Finset FsPath) (hit : Bool) (acc : Frontier),
      Stable env reg0 reg →
      (scanFrontier env cf reg deps expl hit acc).map Prod.fst =
          scanFrontierP env.fs cf (resolve env reg0) deps expl hit acc ∧
        ∀ res reg', scanFrontier env cf reg deps expl hit acc = .ok (res, reg') →
          Stable env reg0 reg' := by
  intro deps
  induction deps with
  | nil =>
    intro reg expl hit acc h
    refine ⟨rfl, ?_⟩
    intro res reg' heq
    cases heq
    exact h
  | cons e rest ih =>
    intro reg expl hit acc h
    obtain ⟨n, f⟩ := e
    by_cases hexp : f ∈ expl
    · simp only [scanFrontier, scanFrontierP, hexp, if_true]
      exact ih reg expl hit acc h
    · simp only [scanFrontier, scanFrontierP, hexp, if_false]
      cases hdep : list_dependencies env.fs f (some n) with
      | error e =>
        refine ⟨rfl, ?_⟩
        intro res reg' heq
        simp at heq
      | ok subs =>
        obtain ⟨hs1, hs2⟩ := scanSubs_sim env cf expl subs reg acc h
        simp only [hs1]
        exact ih _ _ _ _ hs2

theorem roundStep_sim (env : Env) (cf : Finset FsPath)
    {reg0 : ModulesRegistry} :
    ∀ (q : List (FsPath × Frontier)) (reg : ModulesRegistry)
      (sel : Finset FsPath) (expl : FsPath → Finset FsPath)
      (nq : List (FsPath × Frontier)),
      Stable env reg0 reg →
      (roundStep env cf reg q sel expl nq).map Prod.fst =
          roundStepP env.fs cf (resolve env reg0) q sel expl nq ∧
        ∀ res reg', roundStep env cf reg q sel expl nq = .ok (res, reg') →
          Stable env reg0 reg' := by
  intro q
  induction q with
  | nil =>
    intro reg sel expl nq h
    refine ⟨rfl, ?_⟩
    intro res reg' heq
    cases heq
    exact h
  | cons e rest ih =>
    intro reg sel expl nq h
    obtain ⟨t, deps⟩ := e
    by_cases hsel : t ∈ sel
    · simp only [roundStep, roundStepP, hsel, if_true]
      exact ih reg sel expl nq h
    · simp only [roundStep, roundStepP, hsel, if_false]
      obtain ⟨hf1, hf2⟩ := scanFrontier_sim env cf deps reg (expl t) false [] h
      cases hscan : scanFrontier env cf reg deps (expl t) false [] with
      | error e =>
        rw [hscan] at hf1
        simp only [Except.map] at hf1
        rw [← hf1]
        refine ⟨rfl, ?_⟩
        intro res reg' heq
        simp at heq
      | ok pr =>
        obtain ⟨⟨h', acc, e'⟩, reg'⟩ := pr
        rw [hscan] at hf1
        simp only [Except.map] at hf1
        rw [← hf1]
        exact ih reg' _ _ _ (hf2 _ _ hscan)

theorem loop_sim (env : Env) (cf : Finset FsPath) {reg0 : ModulesRegistry} :
    ∀ (fuel : Nat) (reg : ModulesRegistry) (sel : Finset FsPath)
      (expl : FsPath → Finset FsPath) (q : List (FsPath × Frontier)),
      Stable env reg0 reg →
      loop env cf fuel reg sel expl q =
        loopP env.fs cf (resolve env reg0) fuel sel expl q := by
  intro fuel
  induction fuel with
  | zero => intro reg sel expl q _; rfl
  | succ fuel ih =>
    intro reg sel expl q h
    obtain ⟨hr1, hr2⟩ := roundStep_sim env cf q reg sel expl [] h
    simp only [loop, loopP]
    cases hrs : roundStep env cf reg q sel expl [] with
    | error e =>
      rw [hrs] at hr1
      simp only [Except.map] at hr1
      rw [← hr1]
    | ok pr =>
      obtain ⟨⟨sel', expl', q'⟩, reg'⟩ := pr
      rw [hrs] at hr1
      simp only [Except.map] at hr1
      rw [← hr1]
      by_cases hq : q'.isEmpty
      · simp only [hq, if_true]
      · simp only [hq, if_false]
        exact ih reg' sel' expl' q' (hr2 _ _ hrs)

/-- The faithful, registry-threading `select_files` computes exactly what
its pure twin computes for the starting registry's resolution function and
inverse map. -/
theorem select_files_eq (env : Env) (tf : List FsPath) (cf : Finset FsPath)
    (reg : ModulesRegistry) :
    select_files env tf cf reg =
      select_filesP env.fs cf (resolve env reg) reg.get_name tf := by
  unfold select_files select_filesP
  simp only
  by_cases hempty : (tf.filter fun t => t ∉ (tf.filter fun t => t ∈ cf).toFinset).isEmpty
  · simp only [hempty, if_true]
  · simp only [hempty, if_false]
    obtain ⟨h1, h2⟩ := step1_sim env cf
      (tf.filter fun t => t ∉ (tf.filter fun t => t ∈ cf).toFinset) reg
      (tf.filter fun t => t ∈ cf).toFinset [] (stable_rfl env reg)
    cases hst : step1 env cf reg
        (tf.filter fun t => t ∉ (tf.filter fun t => t ∈ cf).toFinset)
        (tf.filter fun t => t ∈ cf).toFinset [] with
    | error e =>
      rw [hst] at h1
      simp only [Except.map] at h1
      rw [← h1]
    | ok pr =>
      obtain ⟨⟨sel1, q1⟩, reg1⟩ := pr
      rw [hst] at h1
      simp only [Except.map] at h1
      rw [← h1]
      exact loop_sim env cf 100 reg1 sel1 (fun _ => ∅) q1 (h2 _ _ hst)

/-! ### Scan-level lemmas -/

theorem scanDepsP_hit_mono {cf1 cf2 : Finset FsPath} (hsub : cf1 ⊆ cf2)
    (r : String → Option FsPath) :
    ∀ (ns : List String) (acc1 acc2 : Frontier),
      (scanDepsP cf1 r ns acc1).1 = true → (scanDepsP cf2 r ns acc2).1 = true := by
  intro ns
  induction ns with
  | nil => intro acc1 acc2 h; exact absurd h (by simp [scanDepsP])
  | cons n rest ih =>
    intro acc1 acc2 h
    cases hr : r n with
    | none =>
      simp only [scanDepsP, hr] at h ⊢
      exact ih _ _ h
    | some f =>
      simp only [scanDepsP, hr] at h ⊢
      by_cases h1 : f ∈ cf1
      · have h2 : f ∈ cf2 := hsub h1
        simp [h2]
      · rw [if_neg h1] at h
        by_cases h2 : f ∈ cf2
        · simp [h2]
        · rw [if_neg h2]
          exact ih _ _ h

theorem scanDepsP_eq_of_no_hit {cf1 cf2 : Finset FsPath} (hsub : cf1 ⊆ cf2)
    (r : String → Option FsPath) :
    ∀ (ns : List String) (acc : Frontier),
      (scanDepsP cf2 r ns acc).1 = false →
      scanDepsP cf1 r ns acc = scanDepsP cf2 r ns acc := by
  intro ns
  induction ns with
  | nil => intro acc _; rfl
  | cons n rest ih =>
    intro acc h
    cases hr : r n with
    | none =>
      simp only [scanDepsP, hr] at h ⊢
      exact ih _ h
    | some f =>
      simp only [scanDepsP, hr] at h ⊢
      by_cases h2 : f ∈ cf2
      · rw [if_pos h2] at h
        simp at h
      · rw [if_neg h2] at h
        have h1 : f ∉ cf1 := fun hc => h2 (hsub hc)
        rw [if_neg h1, if_neg h2]
        exact ih _ h

theorem scanSubsP_hit_mono {cf1 cf2 : Finset FsPath} (hsub : cf1 ⊆ cf2)
    (r : String → Option FsPath) (expl : Finset FsPath) :
    ∀ (ms : List String) (acc1 acc2 : Frontier),
      (scanSubsP cf1 r expl ms acc1).1 = true →
      (scanSubsP cf2 r expl ms acc2).1 = true := by
  intro ms
  induction ms with
  | nil => intro acc1 acc2 h; exact absurd h (by simp [scanSubsP])
  | cons m rest ih =>
    intro acc1 acc2 h
    cases hr : r m with
    | none =>
      simp only [scanSubsP, hr] at h ⊢
      exact ih _ _ h
    | some f =>
      simp only [scanSubsP, hr] at h ⊢
      by_cases h1 : f ∈ cf1
      · have h2 : f ∈ cf2 := hsub h1
        simp [h2]
      · rw [if_neg h1] at h
        by_cases h2 : f ∈ cf2
        · simp [h2]
        · rw [if_neg h2]
          by_cases he : f ∈ expl
          · rw [if_pos he] at h
            rw [if_pos he]
            exact ih _ _ h
          · rw [if_neg he] at h
            rw [if_neg he]
            exact ih _ _ h

theorem scanSubsP_eq_of_no_hit {cf1 cf2 : Finset FsPath} (hsub : cf1 ⊆ cf2)
    (r : String → Option FsPath) (expl : Finset FsPath) :
    ∀ (ms : List String) (acc : Frontier),
      (scanSubsP cf2 r expl ms acc).1 = false →
      scanSubsP cf1 r expl ms acc = scanSubsP cf2 r expl ms acc := by
  intro ms
  induction ms with
  | nil => intro acc _; rfl
  | cons m rest ih =>
    intro acc h
    cases hr : r m with
    | none =>
      simp only [scanSubsP, hr] at h ⊢
      exact ih _ h
    | some f =>
      simp only [scanSubsP, hr] at h ⊢
      by_cases h2 : f ∈ cf2
      · rw [if_pos h2] at h
        simp at h
      · rw [if_neg h2] at h
        have h1 : f ∉ cf1 := fun hc => h2 (hsub hc)
        rw [if_neg h1, if_neg h2]
        by_cases he : f ∈ expl
        · simp only [he, if_true] at h ⊢
          exact ih _ h
        · simp only [he, if_false] at h ⊢
          exact ih _ h

theorem scanFrontierP_hit_sticky (fs : FsPath → Except Unit (List Stmt))
    (cf : Finset FsPath) (r : String → Option FsPath) :
    ∀ (deps : List (String × FsPath)) (expl : Finset FsPath) (acc : Frontier)
      (res : Bool × Frontier × Finset FsPath),
      scanFrontierP fs cf r deps expl true acc = .ok res → res.1 = true := by
  intro deps
  induction deps with
  | nil =>
    intro expl acc res h
    cases h
    rfl
  | cons e rest ih =>
    intro expl acc res h
    obtain ⟨n, f⟩ := e
    by_cases hexp : f ∈ expl
    · simp only [scanFrontierP, hexp, if_true] at h
      exact ih _ _ _ h
    · simp only [scanFrontierP, hexp, if_false] at h
      cases hdep : list_dependencies fs f (some n) with
      | error e => rw [hdep] at h; simp at h
      | ok subs =>
        rw [hdep] at h
        simp only [Bool.true_or] at h
        exact ih _ _ _ h

theorem scanFrontierP_hit_mono {cf1 cf2 : Finset FsPath} (hsub : cf1 ⊆ cf2)
    (fs : FsPath → Except Unit (List Stmt)) (r : String → Option FsPath) :
    ∀ (deps : List (String × FsPath)) (expl : Finset FsPath)
      (hit1 hit2 : Bool) (acc1 acc2 : Frontier)
      (res1 res2 : Bool × Frontier × Finset FsPath),
      (hit1 = true → hit2 = true) →
      scanFrontierP fs cf1 r deps expl hit1 acc1 = .ok res1 →
      scanFrontierP fs cf2 r deps expl hit2 acc2 = .ok res2 →
      res1.1 = true → res2.1 = true := by
  intro deps
  induction deps with
  | nil =>
    intro expl hit1 hit2 acc1 acc2 res1 res2 hh h1 h2 hres
    cases h1
    cases h2
    exact hh hres
  | cons e rest ih =>
    intro expl hit1 hit2 acc1 acc2 res1 res2 hh h1 h2 hres
    obtain ⟨n, f⟩ := e
    by_cases hexp : f ∈ expl
    · simp only [scanFrontierP, hexp, if_true] at h1 h2
      exact ih _ _ _ _ _ _ _ hh h1 h2 hres
    · simp only [scanFrontierP, hexp, if_false] at h1 h2
      cases hdep : list_dependencies fs f (some n) with
      | error e => rw [hdep] at h1; simp at h1
      | ok subs =>
        rw [hdep] at h1 h2
        refine ih _ _ _ _ _ _ _ ?_ h1 h2 hres
        intro hor
        rcases Bool.or_eq_true_iff.1 hor with hcase | hcase
        · rw [hh hcase]
          rfl
        · rw [scanSubsP_hit_mono hsub r expl subs _ _ hcase]
          simp

theorem scanFrontierP_eq_of_no_hit {cf1 cf2 : Finset FsPath} (hsub : cf1 ⊆ cf2)
    (fs : FsPath → Except Unit (List Stmt)) (r : String → Option FsPath) :
    ∀ (deps : List (String × FsPath)) (expl : Finset FsPath) (hit : Bool)
      (acc : Frontier) (res2 : Bool × Frontier × Finset FsPath),
      scanFrontierP fs cf2 r deps expl hit acc = .ok res2 → res2.1 = false →
      scanFrontierP fs cf1 r deps expl hit acc =
        scanFrontierP fs cf2 r deps expl hit acc := by
  intro deps
  induction deps with
  | nil => intro expl hit acc res2 _ _; rfl
  | cons e rest ih =>
    intro expl hit acc res2 h2 hres
    obtain ⟨n, f⟩ := e
    by_cases hexp : f ∈ expl
    · simp only [scanFrontierP, hexp, if_true] at h2 ⊢
      exact ih _ _ _ _ h2 hres
    · simp only [scanFrontierP, hexp, if_false] at h2 ⊢
      cases hdep : list_dependencies fs f (some n) with
      | error e => rfl
      | ok subs =>
        rw [hdep] at h2
        replace h2 : scanFrontierP fs cf2 r rest (insert f expl)
            (hit || (scanSubsP cf2 r expl subs acc).1)
            (scanSubsP cf2 r expl subs acc).2 = .ok res2 := h2
        show scanFrontierP fs cf1 r rest (insert f expl)
            (hit || (scanSubsP cf1 r expl subs acc).1)
            (scanSubsP cf1 r expl subs acc).2 =
          scanFrontierP fs cf2 r rest (insert f expl)
            (hit || (scanSubsP cf2 r expl subs acc).1)
            (scanSubsP cf2 r expl subs acc).2
        have hstep : (hit || (scanSubsP cf2 r expl subs acc).1) = false := by
          by_contra hc
          have : (hit || (scanSubsP cf2 r expl subs acc).1) = true := by
            revert hc
            cases hit || (scanSubsP cf2 r expl subs acc).1 <;> simp
          have := scanFrontierP_hit_sticky fs cf2 r rest (insert f expl)
            (scanSubsP cf2 r expl subs acc).2 res2 (this ▸ h2)
          rw [this] at hres
          cases hres
        have hhit : hit = false := by
          cases hor : hit
          · rfl
          · rw [hor] at hstep
            simp at hstep
        have hsb : (scanSubsP cf2 r expl subs acc).1 = false := by
          cases hor : (scanSubsP cf2 r expl subs acc).1
          · rfl
          · rw [hor] at hstep
            simp at hstep
        rw [scanSubsP_eq_of_no_hit hsub r expl subs acc hsb]
        exact ih _ _ _ _ h2 hres

/-! ### Round-level lemmas -/

theorem roundStepP_sel_mono (fs : FsPath → Except Unit (List Stmt))
    (cf : Finset FsPath) (r : String → Option FsPath) :
    ∀ (q : List (FsPath × Frontier)) (sel : Finset FsPath)
      (expl : FsPath → Finset FsPath) (nq : List (FsPath × Frontier))
      (sel' : Finset FsPath) (expl' : FsPath → Finset FsPath)
      (nq' : List (FsPath × Frontier)),
      roundStepP fs cf r q sel expl nq = .ok (sel', expl', nq') → sel ⊆ sel' := by
  intro q
  induction q with
  | nil =>
    intro sel expl nq sel' expl' nq' h
    cases h
    exact subset_rfl
  | cons e rest ih =>
    intro sel expl nq sel' expl' nq' h
    obtain ⟨t, deps⟩ := e
    by_cases hsel : t ∈ sel
    · simp only [roundStepP, hsel, if_true] at h
      exact ih _ _ _ _ _ _ h
    · simp only [roundStepP, hsel, if_false] at h
      cases hscan : scanFrontierP fs cf r deps (expl t) false [] with
      | error e => rw [hscan] at h; simp at h
      | ok pr =>
        obtain ⟨hb, acc, e'⟩ := pr
        rw [hscan] at h
        refine subset_trans ?_ (ih _ _ _ _ _ _ h)
        cases hb
        · simp
        · simp [Finset.subset_insert]

theorem roundStepP_sel_sub (fs : FsPath → Except Unit (List Stmt))
    (cf : Finset FsPath) (r : String → Option FsPath) :
    ∀ (q : List (FsPath × Frontier)) (sel : Finset FsPath)
      (expl : FsPath → Finset FsPath) (nq : List (FsPath × Frontier))
      (sel' : Finset FsPath) (expl' : FsPath → Finset FsPath)
      (nq' : List (FsPath × Frontier)),
      roundStepP fs cf r q sel expl nq = .ok (sel', expl', nq') →
      ∀ x, x ∈ sel' → x ∈ sel ∨ x ∈ keysOf q := by
  intro q
  induction q with
  | nil =>
    intro sel expl nq sel' expl' nq' h x hx
    cases h
    exact Or.inl hx
  | cons e rest ih =>
    intro sel expl nq sel' expl' nq' h x hx
    obtain ⟨t, deps⟩ := e
    by_cases hsel : t ∈ sel
    · simp only [roundStepP, hsel, if_true] at h
      rcases ih _ _ _ _ _ _ h x hx with hc | hc
      · exact Or.inl hc
      · exact Or.inr (by rw [keysOf_cons]; exact List.mem_cons_of_mem _ hc)
    · simp only [roundStepP, hsel, if_false] at h
      cases hscan : scanFrontierP fs cf r deps (expl t) false [] with
      | error e => rw [hscan] at h; simp at h
      | ok pr =>
        obtain ⟨hb, acc, e'⟩ := pr
        rw [hscan] at h
        rcases ih _ _ _ _ _ _ h x hx with hc | hc
        · cases hb with
          | false =>
            simp only [Bool.false_eq_true, if_false] at hc
            exact Or.inl hc
          | true =>
            simp only [if_true] at hc
            rcases Finset.mem_insert.1 hc with hc | hc
            · exact Or.inr (by rw [keysOf_cons, hc]; exact List.mem_cons_self _ _)
            · exact Or.inl hc
        · exact Or.inr (by rw [keysOf_cons]; exact List.mem_cons_of_mem _ hc)

theorem roundStepP_nq_keys (fs : FsPath → Except Unit (List Stmt))
    (cf : Finset FsPath) (r : String → Option FsPath) :
    ∀ (q : List (FsPath × Frontier)) (sel : Finset FsPath)
      (expl : FsPath → Finset FsPath) (nq : List (FsPath × Frontier))
      (sel' : Finset FsPath) (expl' : FsPath → Finset FsPath)
      (nq' : List (FsPath × Frontier)),
      roundStepP fs cf r q sel expl nq = .ok (sel', expl', nq') →
      ∀ x, x ∈ keysOf nq' → x ∈ keysOf nq ∨ x ∈ keysOf q := by
  intro q
  induction q with
  | nil =>
    intro sel expl nq sel' expl' nq' h x hx
    cases h
    exact Or.inl hx
  | cons e rest ih =>
    intro sel expl nq sel' expl' nq' h x hx
    obtain ⟨t, deps⟩ := e
    by_cases hsel : t ∈ sel
    · simp only [roundStepP, hsel, if_true] at h
      rcases ih _ _ _ _ _ _ h x hx with hc | hc
      · exact Or.inl hc
      · exact Or.inr (by rw [keysOf_cons]; exact List.mem_cons_of_mem _ hc)
    · simp only [roundStepP, hsel, if_false] at h
      cases hscan : scanFrontierP fs cf r deps (expl t) false [] with
      | error e => rw [hscan] at h; simp at h
      | ok pr =>
        obtain ⟨hb, acc, e'⟩ := pr
        rw [hscan] at h
        rcases ih _ _ _ _ _ _ h x hx with hc | hc
        · by_cases hq : acc ≠ [] ∧ ¬hb
          · rw [if_pos hq] at hc
            rcases mem_keysOf_assocUpd hc with hc | hc
            · exact Or.inl hc
            · exact Or.inr
                (by rw [keysOf_cons, hc]; exact List.mem_cons_self _ _)
          · rw [if_neg hq] at hc
            exact Or.inl hc
        · exact Or.inr (by rw [keysOf_cons]; exact List.mem_cons_of_mem _ hc)

theorem roundStepP_frame (fs : FsPath → Except Unit (List Stmt))
    (cf : Finset FsPath) (r : String → Option FsPath) :
    ∀ (q : List (FsPath × Frontier)) (sel : Finset FsPath)
      (expl : FsPath → Finset FsPath) (nq : List (FsPath × Frontier))
      (sel' : Finset FsPath) (expl' : FsPath → Finset FsPath)
      (nq' : List (FsPath × Frontier)),
      roundStepP fs cf r q sel expl nq = .ok (sel', expl', nq') →
      ∀ t, t ∉ keysOf q →
        ((t ∈ sel' ↔ t ∈ sel) ∧ expl' t = expl t ∧
          alookup nq' t = alookup nq t) := by
  intro q
  induction q with
  | nil =>
    intro sel expl nq sel' expl' nq' h t _
    cases h
    exact ⟨Iff.rfl, rfl, rfl⟩
  | cons e rest ih =>
    intro sel expl nq sel' expl' nq' h t ht
    obtain ⟨t₀, deps⟩ := e
    have hne : t ≠ t₀ := by
      intro hc
      exact ht (by rw [keysOf_cons, hc]; exact List.mem_cons_self _ _)
    have htr : t ∉ keysOf rest := fun hc =>
      ht (by rw [keysOf_cons]; exact List.mem_cons_of_mem _ hc)
    by_cases hsel : t₀ ∈ sel
    · simp only [roundStepP, hsel, if_true] at h
      exact ih _ _ _ _ _ _ h t htr
    · simp only [roundStepP, hsel, if_false] at h
      cases hscan : scanFrontierP fs cf r deps (expl t₀) false [] with
      | error e => rw [hscan] at h; simp at h
      | ok pr =>
        obtain ⟨hb, acc, e'⟩ := pr
        rw [hscan] at h
        obtain ⟨ihs, ihe, ihq⟩ := ih _ _ _ _ _ _ h t htr
        refine ⟨?_, ?_, ?_⟩
        · rw [ihs]
          cases hb
          · simp
          · simp only [if_true]
            rw [Finset.mem_insert]
            constructor
            · rintro (hc | hc)
              · exact absurd hc hne
              · exact hc
            · exact Or.inr
        · rw [ihe]
          simp [hne]
        · rw [ihq]
          by_cases hq : acc ≠ [] ∧ ¬hb
          · rw [if_pos hq, alookup_assocUpd]
            rw [if_neg (fun hc => hne hc.symm)]
          · rw [if_neg hq]

theorem roundStepP_entry (fs : FsPath → Except Unit (List Stmt))
    (cf : Finset FsPath) (r : String → Option FsPath) :
    ∀ (q : List (FsPath × Frontier)) (sel : Finset FsPath)
      (expl : FsPath → Finset FsPath) (nq : List (FsPath × Frontier))
      (sel' : Finset FsPath) (expl' : FsPath → Finset FsPath)
      (nq' : List (FsPath × Frontier)),
      roundStepP fs cf r q sel expl nq = .ok (sel', expl', nq') →
      (keysOf q).Nodup →
      ∀ t deps, alookup q t = some deps → t ∉ sel → alookup nq t = none →
        ∃ hb acc e',
          scanFrontierP fs cf r deps (expl t) false [] = .ok (hb, acc, e') ∧
          (t ∈ sel' ↔ hb = true) ∧ expl' t = e' ∧
          alookup nq' t = if acc ≠ [] ∧ hb = false then some acc else none := by
  intro q
  induction q with
  | nil =>
    intro sel expl nq sel' expl' nq' _ _ t deps hq
    simp at hq
  | cons e rest ih =>
    intro sel expl nq sel' expl' nq' h hnd t deps hq hts hnq
    obtain ⟨t₀, deps₀⟩ := e
    rw [keysOf_cons] at hnd
    have hnd' : (keysOf rest).Nodup := hnd.of_cons
    by_cases heq : t = t₀
    · subst heq
      rw [alookup_cons, if_pos rfl] at hq
      injection hq with hq
      subst hq
      simp only [roundStepP, hts, if_false] at h
      cases hscan : scanFrontierP fs cf r deps₀ (expl t) false [] with
      | error e => rw [hscan] at h; simp at h
      | ok pr =>
        obtain ⟨hb, acc, e'⟩ := pr
        rw [hscan] at h
        have htr : t ∉ keysOf rest := by
          have := hnd
          rw [List.nodup_cons] at this
          exact this.1
        obtain ⟨ihs, ihe, ihq⟩ := roundStepP_frame fs cf r rest _ _ _ _ _ _ h t htr
        refine ⟨hb, acc, e', rfl, ?_, ?_, ?_⟩
        · rw [ihs]
          cases hb
          · simp only [Bool.false_eq_true, if_false]
            constructor
            · intro hc
              exact absurd hc hts
            · intro hc
              cases hc
          · simp
        · rw [ihe]
          simp
        · rw [ihq]
          by_cases hcond : acc ≠ [] ∧ ¬hb
          · rw [if_pos hcond, alookup_assocUpd, if_pos rfl]
            have : (acc ≠ [] ∧ hb = false) := by
              refine ⟨hcond.1, ?_⟩
              have := hcond.2
              cases hb
              · rfl
              · exact absurd rfl this
            rw [if_pos this]
          · rw [if_neg hcond, hnq]
            have : ¬(acc ≠ [] ∧ hb = false) := by
              intro hc
              refine hcond ⟨hc.1, ?_⟩
              rw [hc.2]
              simp
            rw [if_neg this]
    · rw [alookup_cons, if_neg (fun hc => heq hc.symm)] at hq
      by_cases hsel : t₀ ∈ sel
      · simp only [roundStepP, hsel, if_true] at h
        exact ih _ _ _ _ _ _ h hnd' t deps hq hts hnq
      · simp only [roundStepP, hsel, if_false] at h
        cases hscan : scanFrontierP fs cf r deps₀ (expl t₀) false [] with
        | error e => rw [hscan] at h; simp at h
        | ok pr =>
          obtain ⟨hb, acc, e'⟩ := pr
          rw [hscan] at h
          have hts2 : t ∉ (if hb then insert t₀ sel else sel) := by
            cases hb
            · simpa using hts
            · simp only [if_true, Finset.mem_insert]
              rintro (hc | hc)
              · exact heq hc
              · exact hts hc
          have hnq2 :
              alookup (if acc ≠ [] ∧ ¬hb then assocUpd nq t₀ acc else nq) t =
                none := by
            by_cases hcond : acc ≠ [] ∧ ¬hb
            · rw [if_pos hcond, alookup_assocUpd,
                if_neg (fun hc => heq hc.symm), hnq]
            · rw [if_neg hcond, hnq]
          obtain ⟨hb', acc', e'', hsc, hmem, hexp, hlook⟩ :=
            ih _ _ _ _ _ _ h hnd' t deps hq hts2 hnq2
          rw [if_neg heq] at hsc
          exact ⟨hb', acc', e'', hsc, hmem, hexp, hlook⟩

theorem roundStepP_nq_nodup (fs : FsPath → Except Unit (List Stmt))
    (cf : Finset FsPath) (r : String → Option FsPath) :
    ∀ (q : List (FsPath × Frontier)) (sel : Finset FsPath)
      (expl : FsPath → Finset FsPath) (nq : List (FsPath × Frontier))
      (sel' : Finset FsPath) (expl' : FsPath → Finset FsPath)
      (nq' : List (FsPath × Frontier)),
      roundStepP fs cf r q sel expl nq = .ok (sel', expl', nq') →
      (keysOf q).Nodup → (keysOf nq).Nodup →
      (∀ x, x ∈ keysOf nq → x ∉ keysOf q) →
      (keysOf nq').Nodup := by
  intro q
  induction q with
  | nil =>
    intro sel expl nq sel' expl' nq' h _ hnq _
    cases h
    exact hnq
  | cons e rest ih =>
    intro sel expl nq sel' expl' nq' h hq hnq hdisj
    obtain ⟨t₀, deps₀⟩ := e
    rw [keysOf_cons] at hq
    have hq' : (keysOf rest).Nodup := hq.of_cons
    have hdisj' : ∀ x, x ∈ keysOf nq → x ∉ keysOf rest := fun x hx hc =>
      hdisj x hx (by rw [keysOf_cons]; exact List.mem_cons_of_mem _ hc)
    by_cases hsel : t₀ ∈ sel
    · simp only [roundStepP, hsel, if_true] at h
      exact ih _ _ _ _ _ _ h hq' hnq hdisj'
    · simp only [roundStepP, hsel, if_false] at h
      cases hscan : scanFrontierP fs cf r deps₀ (expl t₀) false [] with
      | error e => rw [hscan] at h; simp at h
      | ok pr =>
        obtain ⟨hb, acc, e'⟩ := pr
        rw [hscan] at h
        replace h : roundStepP fs cf r rest (if hb then insert t₀ sel else sel)
            (fun x => if x = t₀ then e' else expl x)
            (if acc ≠ [] ∧ ¬hb then assocUpd nq t₀ acc else nq) =
            .ok (sel', expl', nq') := h
        by_cases hcond : acc ≠ [] ∧ ¬hb
        · rw [if_pos hcond] at h
          have ht0 : t₀ ∉ keysOf nq := fun hc =>
            hdisj t₀ hc (by rw [keysOf_cons]; exact List.mem_cons_self _ _)
          refine ih _ _ _ _ _ _ h hq' (keysOf_assocUpd_nodup t₀ acc hnq) ?_
          intro x hx hc
          rcases mem_keysOf_assocUpd hx with hx' | hx'
          · exact hdisj' x hx' hc
          · subst hx'
            rw [List.nodup_cons] at hq
            exact hq.1 hc
        · rw [if_neg hcond] at h
          exact ih _ _ _ _ _ _ h hq' hnq hdisj'

/-! ### Loop-level lemmas -/

theorem loopP_sel_mono (fs : FsPath → Except Unit (List Stmt))
    (cf : Finset FsPath) (r : String → Option FsPath) :
    ∀ (fuel : Nat) (sel : Finset FsPath) (expl : FsPath → Finset FsPath)
      (q : List (FsPath × Frontier)) (s : Finset FsPath),
      loopP fs cf r fuel sel expl q = .ok s → sel ⊆ s := by
  intro fuel
  induction fuel with
  | zero =>
    intro sel expl q s h
    simp [loopP] at h
  | succ fuel ih =>
    intro sel expl q s h
    simp only [loopP] at h
    cases hrs : roundStepP fs cf r q sel expl [] with
    | error e => rw [hrs] at h; simp at h
    | ok pr =>
      obtain ⟨sel', expl', q'⟩ := pr
      rw [hrs] at h
      replace h : (if q'.isEmpty then Except.ok sel'
          else loopP fs cf r fuel sel' expl' q') = Except.ok s := h
      have hmono := roundStepP_sel_mono fs cf r q sel expl [] sel' expl' q' hrs
      by_cases hq : q'.isEmpty
      · rw [if_pos hq] at h
        injection h with h
        subst h
        exact hmono
      · rw [if_neg hq] at h
        exact subset_trans hmono (ih _ _ _ _ h)

theorem loopP_sel_sub (fs : FsPath → Except Unit (List Stmt))
    (cf : Finset FsPath) (r : String → Option FsPath) :
    ∀ (fuel : Nat) (sel : Finset FsPath) (expl : FsPath → Finset FsPath)
      (q : List (FsPath × Frontier)) (s : Finset FsPath),
      loopP fs cf r fuel sel expl q = .ok s →
      ∀ x, x ∈ s → x ∈ sel ∨ x ∈ keysOf q := by
  intro fuel
  induction fuel with
  | zero =>
    intro sel expl q s h
    simp [loopP] at h
  | succ fuel ih =>
    intro sel expl q s h x hx
    simp only [loopP] at h
    cases hrs : roundStepP fs cf r q sel expl [] with
    | error e => rw [hrs] at h; simp at h
    | ok pr =>
      obtain ⟨sel', expl', q'⟩ := pr
      rw [hrs] at h
      replace h : (if q'.isEmpty then Except.ok sel'
          else loopP fs cf r fuel sel' expl' q') = Except.ok s := h
      by_cases hq : q'.isEmpty
      · rw [if_pos hq] at h
        injection h with h
        subst h
        exact roundStepP_sel_sub fs cf r q sel expl [] sel' expl' q' hrs x hx
      · rw [if_neg hq] at h
        rcases ih _ _ _ _ h x hx with hc | hc
        · exact roundStepP_sel_sub fs cf r q sel expl [] sel' expl' q' hrs x hc
        · rcases roundStepP_nq_keys fs cf r q sel expl [] sel' expl' q' hrs x hc
            with hc' | hc'
          · simp at hc'
          · exact Or.inr hc'

/-- Iterate `k` whole rounds (no break check), to state how many rounds a
successful run needed. -/
def roundsP (fs : FsPath → Except Unit (List Stmt)) (changed : Finset FsPath)
    (r : String → Option FsPath) :
    Nat →
    Finset FsPath × (FsPath → Finset FsPath) × List (FsPath × Frontier) →
    Except ExtractError
      (Finset FsPath × (FsPath → Finset FsPath) × List (FsPath × Frontier))
  | 0, st => .ok st
  | k + 1, (sel, expl, q) =>
    match roundStepP fs changed r q sel expl [] with
    | .error e => .error e
    | .ok st' => roundsP fs changed r k st'

theorem loopP_fixpoint (fs : FsPath → Except Unit (List Stmt))
    (cf : Finset FsPath) (r : String → Option FsPath) :
    ∀ (fuel : Nat) (sel : Finset FsPath) (expl : FsPath → Finset FsPath)
      (q : List (FsPath × Frontier)) (s : Finset FsPath),
      loopP fs cf r fuel sel expl q = .ok s →
      ∃ k, k ≤ fuel ∧ ∃ expl',
        roundsP fs cf r k (sel, expl, q) = .ok (s, expl', []) := by
  intro fuel
  induction fuel with
  | zero =>
    intro sel expl q s h
    simp [loopP] at h
  | succ fuel ih =>
    intro sel expl q s h
    simp only [loopP] at h
    cases hrs : roundStepP fs cf r q sel expl [] with
    | error e => rw [hrs] at h; simp at h
    | ok pr =>
      obtain ⟨sel', expl', q'⟩ := pr
      rw [hrs] at h
      replace h : (if q'.isEmpty then Except.ok sel'
          else loopP fs cf r fuel sel' expl' q') = Except.ok s := h
      by_cases hq : q'.isEmpty
      · rw [if_pos hq] at h
        injection h with h
        subst h
        refine ⟨1, by omega, expl', ?_⟩
        have hq' : q' = [] := List.isEmpty_iff.1 hq
        simp only [roundsP, hrs, hq']
      · rw [if_neg hq] at h
        obtain ⟨k, hk, expl'', hr⟩ := ih sel' expl' q' s h
        refine ⟨k + 1, by omega, expl'', ?_⟩
        simp only [roundsP, hrs]
        exact hr

/-! ### Step-1 lemmas -/

theorem step1P_sel_mono (fs : FsPath → Except Unit (List Stmt))
    (cf : Finset FsPath) (r : String → Option FsPath)
    (gname : FsPath → Option String) :
    ∀ (ts : List FsPath) (sel : Finset FsPath) (q : List (FsPath × Frontier))
      (sel' : Finset FsPath) (q' : List (FsPath × Frontier)),
      step1P fs cf r gname ts sel q = .ok (sel', q') → sel ⊆ sel' := by
  intro ts
  induction ts with
  | nil =>
    intro sel q sel' q' h
    cases h
    exact subset_rfl
  | cons t rest ih =>
    intro sel q sel' q' h
    simp only [step1P] at h
    cases hdep : list_dependencies fs t (gname t) with
    | error e => rw [hdep] at h; simp at h
    | ok deps =>
      rw [hdep] at h
      replace h : step1P fs cf r gname rest
          (if (scanDepsP cf r deps []).1 then insert t sel else sel)
          (if (scanDepsP cf r deps []).2 ≠ [] then
            assocUpd q t (scanDepsP cf r deps []).2 else q) = .ok (sel', q') := h
      refine subset_trans ?_ (ih _ _ _ _ h)
      cases (scanDepsP cf r deps []).1
      · simp
      · simp [Finset.subset_insert]

theorem step1P_sel_sub (fs : FsPath → Except Unit (List Stmt))
    (cf : Finset FsPath) (r : String → Option FsPath)
    (gname : FsPath → Option String) :
    ∀ (ts : List FsPath) (sel : Finset FsPath) (q : List (FsPath × Frontier))
      (sel' : Finset FsPath) (q' : List (FsPath × Frontier)),
      step1P fs cf r gname ts sel q = .ok (sel', q') →
      ∀ x, x ∈ sel' → x ∈ sel ∨ x ∈ ts := by
  intro ts
  induction ts with
  | nil =>
    intro sel q sel' q' h x hx
    cases h
    exact Or.inl hx
  | cons t rest ih =>
    intro sel q sel' q' h x hx
    simp only [step1P] at h
    cases hdep : list_dependencies fs t (gname t) with
    | error e => rw [hdep] at h; simp at h
    | ok deps =>
      rw [hdep] at h
      replace h : step1P fs cf r gname rest
          (if (scanDepsP cf r deps []).1 then insert t sel else sel)
          (if (scanDepsP cf r deps []).2 ≠ [] then
            assocUpd q t (scanDepsP cf r deps []).2 else q) = .ok (sel', q') := h
      rcases ih _ _ _ _ h x hx with hc | hc
      · cases hb : (scanDepsP cf r deps []).1
        · rw [hb] at hc
          simp only [Bool.false_eq_true, if_false] at hc
          exact Or.inl hc
        · rw [hb] at hc
          simp only [if_true] at hc
          rcases Finset.mem_insert.1 hc with hc | hc
          · exact Or.inr (by rw [hc]; exact List.mem_cons_self _ _)
          · exact Or.inl hc
      · exact Or.inr (List.mem_cons_of_mem _ hc)

theorem step1P_q_keys (fs : FsPath → Except Unit (List Stmt))
    (cf : Finset FsPath) (r : String → Option FsPath)
    (gname : FsPath → Option String) :
    ∀ (ts : List FsPath) (sel : Finset FsPath) (q : List (FsPath × Frontier))
      (sel' : Finset FsPath) (q' : List (FsPath × Frontier)),
      step1P fs cf r gname ts sel q = .ok (sel', q') →
      ∀ x, x ∈ keysOf q' → x ∈ keysOf q ∨ x ∈ ts := by
  intro ts
  induction ts with
  | nil =>
    intro sel q sel' q' h x hx
    cases h
    exact Or.inl hx
  | cons t rest ih =>
    intro sel q sel' q' h x hx
    simp only [step1P] at h
    cases hdep : list_dependencies fs t (gname t) with
    | error e => rw [hdep] at h; simp at h
    | ok deps =>
      rw [hdep] at h
      replace h : step1P fs cf r gname rest
          (if (scanDepsP cf r deps []).1 then insert t sel else sel)
          (if (scanDepsP cf r deps []).2 ≠ [] then
            assocUpd q t (scanDepsP cf r deps []).2 else q) = .ok (sel', q') := h
      rcases ih _ _ _ _ h x hx with hc | hc
      · by_cases hacc : (scanDepsP cf r deps []).2 ≠ []
        · rw [if_pos hacc] at hc
          rcases mem_keysOf_assocUpd hc with hc' | hc'
          · exact Or.inl hc'
          · exact Or.inr (by rw [hc']; exact List.mem_cons_self _ _)
        · rw [if_neg hacc] at hc
          exact Or.inl hc
      · exact Or.inr (List.mem_cons_of_mem _ hc)

theorem step1P_q_nodup (fs : FsPath → Except Unit (List Stmt))
    (cf : Finset FsPath) (r : String → Option FsPath)
    (gname : FsPath → Option String) :
    ∀ (ts : List FsPath) (sel : Finset FsPath) (q : List (FsPath × Frontier))
      (sel' : Finset FsPath) (q' : List (FsPath × Frontier)),
      step1P fs cf r gname ts sel q = .ok (sel', q') →
      (keysOf q).Nodup → (keysOf q').Nodup := by
  intro ts
  induction ts with
  | nil =>
    intro sel q sel' q' h hq
    cases h
    exact hq
  | cons t rest ih =>
    intro sel q sel' q' h hq
    simp only [step1P] at h
    cases hdep : list_dependencies fs t (gname t) with
    | error e => rw [hdep] at h; simp at h
    | ok deps =>
      rw [hdep] at h
      replace h : step1P fs cf r gname rest
          (if (scanDepsP cf r deps []).1 then insert t sel else sel)
          (if (scanDepsP cf r deps []).2 ≠ [] then
            assocUpd q t (scanDepsP cf r deps []).2 else q) = .ok (sel', q') := h
      refine ih _ _ _ _ h ?_
      by_cases hacc : (scanDepsP cf r deps []).2 ≠ []
      · rw [if_pos hacc]
        exact keysOf_assocUpd_nodup _ _ hq
      · rw [if_neg hacc]
        exact hq

theorem step1P_char (fs : FsPath → Except Unit (List Stmt))
    (cf : Finset FsPath) (r : String → Option FsPath)
    (gname : FsPath → Option String) :
    ∀ (ts : List FsPath) (sel : Finset FsPath) (q : List (FsPath × Frontier))
      (sel' : Finset FsPath) (q' : List (FsPath × Frontier)),
      step1P fs cf r gname ts sel q = .ok (sel', q') →
      ∀ t,
        (t ∉ ts → ((t ∈ sel' ↔ t ∈ sel) ∧ alookup q' t = alookup q t)) ∧
        (t ∈ ts → ∃ deps, list_dependencies fs t (gname t) = .ok deps ∧
          (t ∈ sel' ↔ t ∈ sel ∨ (scanDepsP cf r deps []).1 = true) ∧
          alookup q' t = (if (scanDepsP cf r deps []).2 ≠ [] then
            some (scanDepsP cf r deps []).2 else alookup q t)) := by
  intro ts
  induction ts with
  | nil =>
    intro sel q sel' q' h t
    cases h
    refine ⟨fun _ => ⟨Iff.rfl, rfl⟩, fun hmem => ?_⟩
    simp at hmem
  | cons t₀ rest ih =>
    intro sel q sel' q' h t
    simp only [step1P] at h
    cases hdep : list_dependencies fs t₀ (gname t₀) with
    | error e => rw [hdep] at h; simp at h
    | ok deps₀ =>
      rw [hdep] at h
      replace h : step1P fs cf r gname rest
          (if (scanDepsP cf r deps₀ []).1 then insert t₀ sel else sel)
          (if (scanDepsP cf r deps₀ []).2 ≠ [] then
            assocUpd q t₀ (scanDepsP cf r deps₀ []).2 else q) = .ok (sel', q') := h
      have hih := ih _ _ _ _ h
      have hq2q : ∀ u, u ≠ t₀ →
          alookup (if (scanDepsP cf r deps₀ []).2 ≠ [] then
            assocUpd q t₀ (scanDepsP cf r deps₀ []).2 else q) u = alookup q u := by
        intro u hu
        by_cases hacc : (scanDepsP cf r deps₀ []).2 ≠ []
        · rw [if_pos hacc, alookup_assocUpd, if_neg (fun hc => hu hc.symm)]
        · rw [if_neg hacc]
      have hsel2sel : ∀ u, u ≠ t₀ →
          ((u ∈ if (scanDepsP cf r deps₀ []).1 then insert t₀ sel else sel) ↔
            u ∈ sel) := by
        intro u hu
        cases (scanDepsP cf r deps₀ []).1
        · simp
        · simp only [if_true, Finset.mem_insert]
          constructor
          · rintro (hc | hc)
            · exact absurd hc hu
            · exact hc
          · exact Or.inr
      constructor
      · intro hnot
        have hne : t ≠ t₀ := fun hc =>
          hnot (by rw [hc]; exact List.mem_cons_self _ _)
        have hnr : t ∉ rest := fun hc => hnot (List.mem_cons_of_mem _ hc)
        obtain ⟨hsel2, hq2⟩ := (hih t).1 hnr
        exact ⟨hsel2.trans (hsel2sel t hne), hq2.trans (hq2q t hne)⟩
      · intro hmem
        by_cases heq : t = t₀
        · subst heq
          refine ⟨deps₀, hdep, ?_⟩
          by_cases hr : t ∈ rest
          · obtain ⟨deps', hdep', hsel2, hq2⟩ := (hih t).2 hr
            rw [hdep] at hdep'
            injection hdep' with hdep'
            subst hdep'
            constructor
            · rw [hsel2]
              cases hb : (scanDepsP cf r deps₀ []).1 <;> simp
            · rw [hq2]
              by_cases hacc : (scanDepsP cf r deps₀ []).2 ≠ []
              · rw [if_pos hacc, if_pos hacc]
              · rw [if_neg hacc, if_neg hacc, if_neg hacc]
          · obtain ⟨hsel2, hq2⟩ := (hih t).1 hr
            constructor
            · rw [hsel2]
              cases hb : (scanDepsP cf r deps₀ []).1 <;> simp
            · rw [hq2]
              by_cases hacc : (scanDepsP cf r deps₀ []).2 ≠ []
              · rw [if_pos hacc, if_pos hacc, alookup_assocUpd, if_pos rfl]
              · rw [if_neg hacc, if_neg hacc]
        · have hr : t ∈ rest := by
            rcases List.mem_cons.1 hmem with hc | hc
            · exact absurd hc heq
            · exact hc
          obtain ⟨deps', hdep', hsel2, hq2⟩ := (hih t).2 hr
          refine ⟨deps', hdep', ?_, ?_⟩
          · rw [hsel2]
            constructor
            · rintro (hc | hc)
              · exact Or.inl ((hsel2sel t heq).1 hc)
              · exact Or.inr hc
            · rintro (hc | hc)
              · exact Or.inl ((hsel2sel t heq).2 hc)
              · exact Or.inr hc
          · rw [hq2]
            by_cases hc : (scanDepsP cf r deps' []).2 ≠ []
            · rw [if_pos hc, if_pos hc]
            · rw [if_neg hc, if_neg hc]
              exact hq2q t heq

/-! ### Cross-run lemmas: enlarging the changed set -/

/-- Relation between the states of two runs that differ only in the
changed-file set (run 2 uses the larger set): run 2 has selected at least as
much, and every target run 2 has not (yet) selected is in exactly the same
exploration state in both runs. -/
def CrossInv (sel1 sel2 : Finset FsPath) (expl1 expl2 : FsPath → Finset FsPath)
    (q1 q2 : List (FsPath × Frontier)) : Prop :=
  sel1 ⊆ sel2 ∧
    ∀ t, t ∉ sel2 → alookup q1 t = alookup q2 t ∧ expl1 t = expl2 t

theorem roundStepP_cross {cf1 cf2 : Finset FsPath} (hsub : cf1 ⊆ cf2)
    (fs : FsPath → Except Unit (List Stmt)) (r : String → Option FsPath)
    {q1 q2 : List (FsPath × Frontier)} {sel1 sel2 : Finset FsPath}
    {expl1 expl2 : FsPath → Finset FsPath} {sel1' sel2' : Finset FsPath}
    {expl1' expl2' : FsPath → Finset FsPath}
    {nq1 nq2 : List (FsPath × Frontier)}
    (hinv : CrossInv sel1 sel2 expl1 expl2 q1 q2)
    (hnd1 : (keysOf q1).Nodup) (hnd2 : (keysOf q2).Nodup)
    (h1 : roundStepP fs cf1 r q1 sel1 expl1 [] = .ok (sel1', expl1', nq1))
    (h2 : roundStepP fs cf2 r q2 sel2 expl2 [] = .ok (sel2', expl2', nq2)) :
    CrossInv sel1' sel2' expl1' expl2' nq1 nq2 := by
  have hmono2 : sel2 ⊆ sel2' := roundStepP_sel_mono fs cf2 r _ _ _ _ _ _ _ h2
  have hmono1 : sel1 ⊆ sel1' := roundStepP_sel_mono fs cf1 r _ _ _ _ _ _ _ h1
  have hsel : sel1' ⊆ sel2' := by
    intro x hx
    by_cases hx1 : x ∈ sel1
    · exact hmono2 (hinv.1 hx1)
    · by_cases hx2 : x ∈ sel2'
      · exact hx2
      · exfalso
        have hx2' : x ∉ sel2 := fun hc => hx2 (hmono2 hc)
        obtain ⟨hqeq, heeq⟩ := hinv.2 x hx2'
        rcases roundStepP_sel_sub fs cf1 r _ _ _ _ _ _ _ h1 x hx with hc | hc
        · exact hx1 hc
        · have hsome := (alookup_isSome_iff_mem_keys q1 x).2 hc
          obtain ⟨deps, hdeps⟩ := Option.isSome_iff_exists.1 hsome
          obtain ⟨hb1, acc1, e1, hscan1, hmem1, _, _⟩ :=
            roundStepP_entry fs cf1 r _ _ _ _ _ _ _ h1 hnd1 x deps hdeps hx1 rfl
          have hdeps2 : alookup q2 x = some deps := by rw [← hqeq]; exact hdeps
          obtain ⟨hb2, acc2, e2, hscan2, hmem2, _, _⟩ :=
            roundStepP_entry fs cf2 r _ _ _ _ _ _ _ h2 hnd2 x deps hdeps2 hx2' rfl
          rw [← heeq] at hscan2
          have hb1t : hb1 = true := hmem1.1 hx
          have hb2t : hb2 = true :=
            scanFrontierP_hit_mono hsub fs r deps (expl1 x) false false [] []
              (hb1, acc1, e1) (hb2, acc2, e2) (fun hc => hc) hscan1 hscan2 hb1t
          exact hx2 (hmem2.2 hb2t)
  refine ⟨hsel, ?_⟩
  intro t ht2'
  have ht2 : t ∉ sel2 := fun hc => ht2' (hmono2 hc)
  have ht1 : t ∉ sel1 := fun hc => ht2 (hinv.1 hc)
  have ht1' : t ∉ sel1' := fun hc => ht2' (hsel hc)
  obtain ⟨hqeq, heeq⟩ := hinv.2 t ht2
  cases hq1t : alookup q1 t with
  | none =>
    have hq2t : alookup q2 t = none := by rw [← hqeq]; exact hq1t
    have hk1 : t ∉ keysOf q1 := not_mem_keys_of_alookup_eq_none hq1t
    have hk2 : t ∉ keysOf q2 := not_mem_keys_of_alookup_eq_none hq2t
    obtain ⟨_, he1, hn1⟩ := roundStepP_frame fs cf1 r _ _ _ _ _ _ _ h1 t hk1
    obtain ⟨_, he2, hn2⟩ := roundStepP_frame fs cf2 r _ _ _ _ _ _ _ h2 t hk2
    refine ⟨?_, ?_⟩
    · rw [hn1, hn2]
    · rw [he1, he2, heeq]
  | some deps =>
    have hq2t : alookup q2 t = some deps := by rw [← hqeq]; exact hq1t
    obtain ⟨hb1, acc1, e1, hscan1, hmem1, hexp1, hlook1⟩ :=
      roundStepP_entry fs cf1 r _ _ _ _ _ _ _ h1 hnd1 t deps hq1t ht1 rfl
    obtain ⟨hb2, acc2, e2, hscan2, hmem2, hexp2, hlook2⟩ :=
      roundStepP_entry fs cf2 r _ _ _ _ _ _ _ h2 hnd2 t deps hq2t ht2 rfl
    rw [← heeq] at hscan2
    have hb2f : hb2 = false := by
      cases hc : hb2
      · rfl
      · exact absurd (hmem2.2 hc) ht2'
    have heqscan :
        scanFrontierP fs cf1 r deps (expl1 t) false [] =
          scanFrontierP fs cf2 r deps (expl1 t) false [] :=
      scanFrontierP_eq_of_no_hit hsub fs r deps (expl1 t) false []
        (hb2, acc2, e2) hscan2 hb2f
    rw [heqscan, hscan2] at hscan1
    injection hscan1 with hscan1
    have hb : hb1 = hb2 := congrArg Prod.fst hscan1.symm
    have hacc : acc1 = acc2 := congrArg (fun p => p.2.1) hscan1.symm
    have he : e1 = e2 := congrArg (fun p => p.2.2) hscan1.symm
    refine ⟨?_, ?_⟩
    · rw [hlook1, hlook2, hb, hacc]
    · rw [hexp1, hexp2, he]

theorem loopP_cross {cf1 cf2 : Finset FsPath} (hsub : cf1 ⊆ cf2)
    (fs : FsPath → Except Unit (List Stmt)) (r : String → Option FsPath) :
    ∀ (fuel : Nat) (sel1 : Finset FsPath) (expl1 : FsPath → Finset FsPath)
      (q1 : List (FsPath × Frontier)) (sel2 : Finset FsPath)
      (expl2 : FsPath → Finset FsPath) (q2 : List (FsPath × Frontier))
      (s1 s2 : Finset FsPath),
      CrossInv sel1 sel2 expl1 expl2 q1 q2 →
      (keysOf q1).Nodup → (keysOf q2).Nodup →
      loopP fs cf1 r fuel sel1 expl1 q1 = .ok s1 →
      loopP fs cf2 r fuel sel2 expl2 q2 = .ok s2 →
      s1 ⊆ s2 := by
  intro fuel
  induction fuel with
  | zero =>
    intro sel1 expl1 q1 sel2 expl2 q2 s1 s2 _ _ _ h1 _
    simp [loopP] at h1
  | succ fuel ih =>
    intro sel1 expl1 q1 sel2 expl2 q2 s1 s2 hinv hnd1 hnd2 h1 h2
    simp only [loopP] at h1 h2
    cases hrs1 : roundStepP fs cf1 r q1 sel1 expl1 [] with
    | error e => rw [hrs1] at h1; simp at h1
    | ok pr1 =>
      obtain ⟨sel1', expl1', nq1⟩ := pr1
      rw [hrs1] at h1
      replace h1 : (if nq1.isEmpty then Except.ok sel1'
          else loopP fs cf1 r fuel sel1' expl1' nq1) = Except.ok s1 := h1
      cases hrs2 : roundStepP fs cf2 r q2 sel2 expl2 [] with
      | error e => rw [hrs2] at h2; simp at h2
      | ok pr2 =>
        obtain ⟨sel2', expl2', nq2⟩ := pr2
        rw [hrs2] at h2
        replace h2 : (if nq2.isEmpty then Except.ok sel2'
            else loopP fs cf2 r fuel sel2' expl2' nq2) = Except.ok s2 := h2
        have hinv' : CrossInv sel1' sel2' expl1' expl2' nq1 nq2 :=
          roundStepP_cross hsub fs r hinv hnd1 hnd2 hrs1 hrs2
        have hnd1' : (keysOf nq1).Nodup :=
          roundStepP_nq_nodup fs cf1 r _ _ _ _ _ _ _ hrs1 hnd1 (by simp)
            (by intro x hx; simp at hx)
        have hnd2' : (keysOf nq2).Nodup :=
          roundStepP_nq_nodup fs cf2 r _ _ _ _ _ _ _ hrs2 hnd2 (by simp)
            (by intro x hx; simp at hx)
        have hsel2s2 : sel2' ⊆ s2 := by
          by_cases hq2 : nq2.isEmpty
          · rw [if_pos hq2] at h2
            injection h2 with h2
            rw [h2]
          · rw [if_neg hq2] at h2
            exact loopP_sel_mono fs cf2 r fuel sel2' expl2' nq2 s2 h2
        by_cases hq1 : nq1.isEmpty
        · rw [if_pos hq1] at h1
          injection h1 with h1
          subst h1
          exact subset_trans hinv'.1 hsel2s2
        · rw [if_neg hq1] at h1
          by_cases hq2 : nq2.isEmpty
          · rw [if_pos hq2] at h2
            injection h2 with h2
            subst h2
            intro x hx
            rcases loopP_sel_sub fs cf1 r fuel sel1' expl1' nq1 s1 h1 x hx
              with hc | hc
            · exact hsel2s2 (hinv'.1 hc)
            · by_cases hx2 : x ∈ sel2'
              · exact hsel2s2 hx2
              · exfalso
                obtain ⟨hqeq, _⟩ := hinv'.2 x hx2
                have := (alookup_isSome_iff_mem_keys nq1 x).2 hc
                rw [hqeq] at this
                have hk2 := (alookup_isSome_iff_mem_keys nq2 x).1 this
                rw [List.isEmpty_iff.1 hq2] at hk2
                simp [keysOf] at hk2
          · rw [if_neg hq2] at h2
            exact ih sel1' expl1' nq1 sel2' expl2' nq2 s1 s2 hinv' hnd1' hnd2'
              h1 h2

theorem step1P_cross {cf1 cf2 : Finset FsPath} (hsub : cf1 ⊆ cf2)
    (fs : FsPath → Except Unit (List Stmt)) (r : String → Option FsPath)
    (gname : FsPath → Option String) (ts1 ts2 : List FsPath)
    (sel01 sel02 sel1 sel2 : Finset FsPath)
    (q1 q2 : List (FsPath × Frontier))
    (hts21 : ∀ t, t ∈ ts2 → t ∈ ts1)
    (hts12 : ∀ t, t ∈ ts1 → t ∉ sel02 → t ∈ ts2)
    (hsel0 : sel01 ⊆ sel02)
    (h1 : step1P fs cf1 r gname ts1 sel01 [] = .ok (sel1, q1))
    (h2 : step1P fs cf2 r gname ts2 sel02 [] = .ok (sel2, q2)) :
    sel1 ⊆ sel2 ∧ ∀ t, t ∉ sel2 → alookup q1 t = alookup q2 t := by
  have hmono2 : sel02 ⊆ sel2 := step1P_sel_mono fs cf2 r gname _ _ _ _ _ h2
  have hchar1 := step1P_char fs cf1 r gname ts1 sel01 [] sel1 q1 h1
  have hchar2 := step1P_char fs cf2 r gname ts2 sel02 [] sel2 q2 h2
  constructor
  · intro x hx
    by_cases hx1 : x ∈ ts1
    · obtain ⟨deps, hdep, hsx, _⟩ := (hchar1 x).2 hx1
      rcases hsx.1 hx with hc | hc
      · exact hmono2 (hsel0 hc)
      · by_cases hx02 : x ∈ sel02
        · exact hmono2 hx02
        · have hx2 : x ∈ ts2 := hts12 x hx1 hx02
          obtain ⟨deps2, hdep2, hsx2, _⟩ := (hchar2 x).2 hx2
          rw [hdep] at hdep2
          injection hdep2 with hdep2
          subst hdep2
          exact hsx2.2 (Or.inr (scanDepsP_hit_mono hsub r deps [] [] hc))
    · obtain ⟨hsx, _⟩ := (hchar1 x).1 hx1
      exact hmono2 (hsel0 (hsx.1 hx))
  · intro t ht2
    have ht02 : t ∉ sel02 := fun hc => ht2 (hmono2 hc)
    by_cases ht1 : t ∈ ts1
    · have hts2 : t ∈ ts2 := hts12 t ht1 ht02
      obtain ⟨deps, hdep, _, hq1⟩ := (hchar1 t).2 ht1
      obtain ⟨deps2, hdep2, hsx2, hq2⟩ := (hchar2 t).2 hts2
      rw [hdep] at hdep2
      injection hdep2 with hdep2
      subst hdep2
      have hhit2 : (scanDepsP cf2 r deps []).1 = false := by
        cases hc : (scanDepsP cf2 r deps []).1
        · rfl
        · exact absurd (hsx2.2 (Or.inr hc)) ht2
      have heq := scanDepsP_eq_of_no_hit hsub r deps [] hhit2
      rw [hq1, hq2, heq]
    · have hts2 : t ∉ ts2 := fun hc => ht1 (hts21 t hc)
      obtain ⟨_, hq1⟩ := (hchar1 t).1 ht1
      obtain ⟨_, hq2⟩ := (hchar2 t).1 hts2
      rw [hq1, hq2]

/-! ### Whole-run lemmas -/

theorem select_filesP_sub (fs : FsPath → Except Unit (List Stmt))
    (cf : Finset FsPath) (r : String → Option FsPath)
    (gname : FsPath → Option String) (tf : List FsPath) (s : Finset FsPath)
    (h : select_filesP fs cf r gname tf = .ok s) :
    ∀ x ∈ s, x ∈ tf := by
  intro x hx
  unfold select_filesP at h
  simp only at h
  by_cases hempty : (tf.filter fun t =>
      t ∉ (tf.filter fun t => t ∈ cf).toFinset).isEmpty
  · rw [if_pos hempty] at h
    injection h with h
    subst h
    have := List.mem_toFinset.1 hx
    exact (List.mem_filter.1 this).1
  · rw [if_neg hempty] at h
    cases hst : step1P fs cf r gname
        (tf.filter fun t => t ∉ (tf.filter fun t => t ∈ cf).toFinset)
        (tf.filter fun t => t ∈ cf).toFinset [] with
    | error e => rw [hst] at h; simp at h
    | ok pr =>
      obtain ⟨sel1, q1⟩ := pr
      rw [hst] at h
      replace h : loopP fs cf r 100 sel1 (fun _ => ∅) q1 = .ok s := h
      rcases loopP_sel_sub fs cf r 100 sel1 (fun _ => ∅) q1 s h x hx
        with hc | hc
      · rcases step1P_sel_sub fs cf r gname _ _ _ _ _ hst x hc with hc' | hc'
        · have := List.mem_toFinset.1 hc'
          exact (List.mem_filter.1 this).1
        · exact (List.mem_filter.1 hc').1
      · rcases step1P_q_keys fs cf r gname _ _ _ _ _ hst x hc with hc' | hc'
        · simp at hc'
        · exact (List.mem_filter.1 hc').1

theorem select_filesP_direct (fs : FsPath → Except Unit (List Stmt))
    (cf : Finset FsPath) (r : String → Option FsPath)
    (gname : FsPath → Option String) (tf : List FsPath) (s : Finset FsPath)
    (h : select_filesP fs cf r gname tf = .ok s) :
    ∀ x ∈ tf, x ∈ cf → x ∈ s := by
  intro x hxt hxc
  have hx0 : x ∈ (tf.filter fun t => t ∈ cf).toFinset := by
    rw [List.mem_toFinset, List.mem_filter]
    exact ⟨hxt, by simpa using hxc⟩
  unfold select_filesP at h
  simp only at h
  by_cases hempty : (tf.filter fun t =>
      t ∉ (tf.filter fun t => t ∈ cf).toFinset).isEmpty
  · rw [if_pos hempty] at h
    injection h with h
    subst h
    exact hx0
  · rw [if_neg hempty] at h
    cases hst : step1P fs cf r gname
        (tf.filter fun t => t ∉ (tf.filter fun t => t ∈ cf).toFinset)
        (tf.filter fun t => t ∈ cf).toFinset [] with
    | error e => rw [hst] at h; simp at h
    | ok pr =>
      obtain ⟨sel1, q1⟩ := pr
      rw [hst] at h
      replace h : loopP fs cf r 100 sel1 (fun _ => ∅) q1 = .ok s := h
      exact loopP_sel_mono fs cf r 100 sel1 (fun _ => ∅) q1 s h
        (step1P_sel_mono fs cf r gname _ _ _ _ _ hst hx0)

theorem select_filesP_mono {cf1 cf2 : Finset FsPath} (hsub : cf1 ⊆ cf2)
    (fs : FsPath → Except Unit (List Stmt)) (r : String → Option FsPath)
    (gname : FsPath → Option String) (tf : List FsPath)
    (s1 s2 : Finset FsPath)
    (h1 : select_filesP fs cf1 r gname tf = .ok s1)
    (h2 : select_filesP fs cf2 r gname tf = .ok s2) :
    s1 ⊆ s2 := by
  have hsel0 : (tf.filter fun t => t ∈ cf1).toFinset ⊆
      (tf.filter fun t => t ∈ cf2).toFinset := by
    intro x hx
    rw [List.mem_toFinset, List.mem_filter] at hx ⊢
    refine ⟨hx.1, ?_⟩
    have := hx.2
    simp only [decide_eq_true_eq] at this ⊢
    exact hsub this
  have hsel02s2 : (tf.filter fun t => t ∈ cf2).toFinset ⊆ s2 := by
    intro x hx
    rw [List.mem_toFinset, List.mem_filter] at hx
    exact select_filesP_direct fs cf2 r gname tf s2 h2 x hx.1
      (by simpa using hx.2)
  unfold select_filesP at h1 h2
  simp only at h1 h2
  by_cases hemp1 : (tf.filter fun t =>
      t ∉ (tf.filter fun t => t ∈ cf1).toFinset).isEmpty
  · rw [if_pos hemp1] at h1
    injection h1 with h1
    subst h1
    exact subset_trans hsel0 hsel02s2
  · rw [if_neg hemp1] at h1
    by_cases hemp2 : (tf.filter fun t =>
        t ∉ (tf.filter fun t => t ∈ cf2).toFinset).isEmpty
    · rw [if_pos hemp2] at h2
      injection h2 with h2
      subst h2
      have hall : ∀ t ∈ tf, t ∈ (tf.filter fun t => t ∈ cf2).toFinset := by
        intro t ht
        by_contra hc
        have : t ∈ tf.filter fun t =>
            t ∉ (tf.filter fun t => t ∈ cf2).toFinset := by
          rw [List.mem_filter]
          exact ⟨ht, decide_eq_true hc⟩
        rw [List.isEmpty_iff.1 hemp2] at this
        simp at this
      cases hst : step1P fs cf1 r gname
          (tf.filter fun t => t ∉ (tf.filter fun t => t ∈ cf1).toFinset)
          (tf.filter fun t => t ∈ cf1).toFinset [] with
      | error e => rw [hst] at h1; simp at h1
      | ok pr =>
        obtain ⟨sel1, q1⟩ := pr
        rw [hst] at h1
        replace h1 : loopP fs cf1 r 100 sel1 (fun _ => ∅) q1 = .ok s1 := h1
        intro x hx
        rcases loopP_sel_sub fs cf1 r 100 sel1 (fun _ => ∅) q1 s1 h1 x hx
          with hc | hc
        · rcases step1P_sel_sub fs cf1 r gname _ _ _ _ _ hst x hc with hc' | hc'
          · exact hsel02s2 (hall x
              (List.mem_filter.1 (List.mem_toFinset.1 hc')).1)
          · exact hsel02s2 (hall x (List.mem_filter.1 hc').1)
        · rcases step1P_q_keys fs cf1 r gname _ _ _ _ _ hst x hc with hc' | hc'
          · simp at hc'
          · exact hsel02s2 (hall x (List.mem_filter.1 hc').1)
    · rw [if_neg hemp2] at h2
      cases hst1 : step1P fs cf1 r gname
          (tf.filter fun t => t ∉ (tf.filter fun t => t ∈ cf1).toFinset)
          (tf.filter fun t => t ∈ cf1).toFinset [] with
      | error e => rw [hst1] at h1; simp at h1
      | ok pr1 =>
        obtain ⟨sel1, q1⟩ := pr1
        rw [hst1] at h1
        replace h1 : loopP fs cf1 r 100 sel1 (fun _ => ∅) q1 = .ok s1 := h1
        cases hst2 : step1P fs cf2 r gname
            (tf.filter fun t => t ∉ (tf.filter fun t => t ∈ cf2).toFinset)
            (tf.filter fun t => t ∈ cf2).toFinset [] with
        | error e => rw [hst2] at h2; simp at h2
        | ok pr2 =>
          obtain ⟨sel2, q2⟩ := pr2
          rw [hst2] at h2
          replace h2 : loopP fs cf2 r 100 sel2 (fun _ => ∅) q2 = .ok s2 := h2
          have hts21 : ∀ t,
              t ∈ (tf.filter fun t =>
                t ∉ (tf.filter fun t => t ∈ cf2).toFinset) →
              t ∈ (tf.filter fun t =>
                t ∉ (tf.filter fun t => t ∈ cf1).toFinset) := by
            intro t ht
            rw [List.mem_filter] at ht ⊢
            refine ⟨ht.1, ?_⟩
            have := ht.2
            simp only [decide_eq_true_eq] at this ⊢
            exact fun hc => this (hsel0 hc)
          have hts12 : ∀ t,
              t ∈ (tf.filter fun t =>
                t ∉ (tf.filter fun t => t ∈ cf1).toFinset) →
              t ∉ (tf.filter fun t => t ∈ cf2).toFinset →
              t ∈ (tf.filter fun t =>
                t ∉ (tf.filter fun t => t ∈ cf2).toFinset) := by
            intro t ht hnot
            rw [List.mem_filter] at ht ⊢
            exact ⟨ht.1, decide_eq_true hnot⟩
          obtain ⟨hs12, hq12⟩ := step1P_cross hsub fs r gname _ _ _ _ _ _ _ _
            hts21 hts12 hsel0 hst1 hst2
          have hinv : CrossInv sel1 sel2 (fun _ => ∅) (fun _ => ∅) q1 q2 :=
            ⟨hs12, fun t ht => ⟨hq12 t ht, rfl⟩⟩
          exact loopP_cross hsub fs r 100 sel1 (fun _ => ∅) q1 sel2
            (fun _ => ∅) q2 s1 s2 hinv
            (step1P_q_nodup fs cf1 r gname _ _ _ _ _ hst1 (by simp))
            (step1P_q_nodup fs cf2 r gname _ _ _ _ _ hst2 (by simp))
            h1 h2

/-! ### Extractor lemmas -/

theorem prefixClosure_none {s : String} (h : rpartitionPre s = none) :
    prefixClosure s = [] := by
  unfold prefixClosure
  cases hn : s.length with
  | zero => rfl
  | succ n =>
    simp only [prefixClosureAux, h]

theorem prefixClosure_some {s t : String} (h : rpartitionPre s = some t) :
    prefixClosure s = (prefixClosure t).insert t := by
  unfold prefixClosure
  cases hn : s.length with
  | zero =>
    rw [rpartitionPre_len_zero hn] at h
    cases h
  | succ n =>
    simp only [prefixClosureAux, h]
    have hlt := rpartitionPre_length h
    rw [prefixClosureAux_congr n t.length t (by omega) le_rfl]

theorem prefixClosure_trans :
    ∀ (n : Nat) (s : String), s.length ≤ n →
      ∀ u ∈ prefixClosure s, ∀ v ∈ prefixClosure u, v ∈ prefixClosure s := by
  intro n
  induction n with
  | zero =>
    intro s hs u hu
    cases hr : rpartitionPre s with
    | none => rw [prefixClosure_none hr] at hu; simp at hu
    | some t =>
      have := rpartitionPre_length hr
      omega
  | succ n ih =>
    intro s hs u hu v hv
    cases hr : rpartitionPre s with
    | none => rw [prefixClosure_none hr] at hu; simp at hu
    | some t =>
      have hlt := rpartitionPre_length hr
      rw [prefixClosure_some hr] at hu ⊢
      rw [List.mem_insert_iff] at hu ⊢
      rcases hu with hu | hu
      · subst hu
        exact Or.inr hv
      · exact Or.inr (ih t (by omega) u hu v hv)

/-- Membership in the result of `list_dependencies`. -/
theorem list_dependencies_mem (fs : FsPath → Except Unit (List Stmt))
    (file : FsPath) (package : Option String) (deps : List String)
    (h : list_dependencies fs file package = .ok deps) :
    ∀ d, d ∈ deps ↔
      ∃ base, (match fs file with
        | .error _ => False
        | .ok stmts => collectDeps (contextParts file package) stmts = .ok base) ∧
        (d ∈ base ∨ ∃ b ∈ base, d ∈ prefixClosure b) := by
  intro d
  unfold list_dependencies at h
  cases hfs : fs file with
  | error e => rw [hfs] at h; simp at h
  | ok stmts =>
    rw [hfs] at h
    replace h : (match collectDeps (contextParts file package) stmts with
      | Except.error e => Except.error e
      | Except.ok ds =>
        Except.ok (ds.union (List.map prefixClosure ds).flatten)) =
        Except.ok deps := h
    cases hcd : collectDeps (contextParts file package) stmts with
    | error e => rw [hcd] at h; simp at h
    | ok base =>
      rw [hcd] at h
      injection h with h
      subst h
      constructor
      · intro hd
        refine ⟨base, hcd, ?_⟩
        rcases List.mem_union_iff.1 hd with hc | hc
        · exact Or.inl hc
        · rw [List.mem_flatten] at hc
          obtain ⟨l, hl, hdl⟩ := hc
          rw [List.mem_map] at hl
          obtain ⟨b, hb, rfl⟩ := hl
          exact Or.inr ⟨b, hb, hdl⟩
      · rintro ⟨base', hcd', hor⟩
        have : base' = base := by
          replace hcd' : collectDeps (contextParts file package) stmts =
              Except.ok base' := hcd'
          rw [hcd] at hcd'
          injection hcd' with h2
          exact h2.symm
        subst this
        rcases hor with hc | ⟨b, hb, hc⟩
        · exact List.mem_union_iff.2 (Or.inl hc)
        · refine List.mem_union_iff.2 (Or.inr ?_)
          rw [List.mem_flatten]
          exact ⟨prefixClosure b, List.mem_map.2 ⟨b, hb, rfl⟩, hc⟩

/-- The returned dependency set is closed under the ancestor-prefix
closure. -/
theorem list_dependencies_prefix_closed (fs : FsPath → Except Unit (List Stmt))
    (file : FsPath) (package : Option String) (deps : List String)
    (h : list_dependencies fs file package = .ok deps) :
    ∀ d ∈ deps, ∀ p ∈ prefixClosure d, p ∈ deps := by
  intro d hd p hp
  rw [list_dependencies_mem fs file package deps h] at hd ⊢
  obtain ⟨base, hbase, hor⟩ := hd
  refine ⟨base, hbase, ?_⟩
  rcases hor with hc | ⟨b, hb, hc⟩
  · exact Or.inr ⟨d, hc, hp⟩
  · exact Or.inr ⟨b, hb,
      prefixClosure_trans b.length b le_rfl d hc p hp⟩

/-- The conditions under which the source's `assert len(parts) >= level`
fails for one statement. -/
def violatesLevel (parts : List String) : Stmt → Prop
  | .imp _ => False
  | .fromImp (some _) _ level => level ≠ 0 ∧ parts.length < level
  | .fromImp none _ level => parts.length < level

instance (parts : List String) (st : Stmt) : Decidable (violatesLevel parts st) := by
  cases st with
  | imp names => exact isFalse (fun hc => hc)
  | fromImp m names level =>
    cases m with
    | some module => exact instDecidableAnd
    | none => exact Nat.decLt _ _

theorem stmtDeps_error_iff (parts : List String) (st : Stmt) :
    (∃ e, stmtDeps parts st = .error e) ↔ violatesLevel parts st := by
  cases st with
  | imp names => simp [stmtDeps, violatesLevel]
  | fromImp m names level =>
    cases m with
    | some module =>
      by_cases hl : level ≠ 0
      · by_cases hlen : parts.length ≥ level
        · simp [stmtDeps, hl, hlen, violatesLevel] <;> omega
        · simp [stmtDeps, hl, hlen, violatesLevel] <;> omega
      · simp [stmtDeps, hl, violatesLevel] <;> omega
    | none =>
      by_cases hlen : parts.length ≥ level
      · simp [stmtDeps, hlen, violatesLevel] <;> omega
      · simp [stmtDeps, hlen, violatesLevel] <;> omega

theorem stmtDeps_error_val (parts : List String) (st : Stmt) (e : ExtractError)
    (h : stmtDeps parts st = .error e) : e = .assertionError := by
  cases st with
  | imp names => simp [stmtDeps] at h
  | fromImp m names level =>
    cases m with
    | some module =>
      by_cases hl : level ≠ 0
      · by_cases hlen : parts.length ≥ level
        · simp [stmtDeps, hl, hlen] at h
        · simp [stmtDeps, hl, hlen] at h
          exact h.symm
      · simp [stmtDeps, hl] at h
    | none =>
      by_cases hlen : parts.length ≥ level
      · simp [stmtDeps, hlen] at h
      · simp [stmtDeps, hlen] at h
        exact h.symm

theorem collectDeps_error_of_violation (parts : List String) :
    ∀ (stmts : List Stmt), (∃ st ∈ stmts, violatesLevel parts st) →
      collectDeps parts stmts = .error .assertionError := by
  intro stmts
  induction stmts with
  | nil =>
    rintro ⟨st, hst, _⟩
    simp at hst
  | cons st₀ rest ih =>
    rintro ⟨st, hst, hviol⟩
    simp only [collectDeps]
    cases hsd : stmtDeps parts st₀ with
    | error e =>
      rw [stmtDeps_error_val parts st₀ e hsd]
    | ok ns =>
      rcases List.mem_cons.1 hst with hc | hc
      · subst hc
        obtain ⟨e, he⟩ := (stmtDeps_error_iff parts st).2 hviol
        rw [he] at hsd
        cases hsd
      · rw [ih ⟨st, hc, hviol⟩]

theorem collectDeps_ok_of_no_violation (parts : List String) :
    ∀ (stmts : List Stmt), (∀ st ∈ stmts, ¬violatesLevel parts st) →
      ∃ ds, collectDeps parts stmts = .ok ds := by
  intro stmts
  induction stmts with
  | nil => intro _; exact ⟨[], rfl⟩
  | cons st₀ rest ih =>
    intro hok
    simp only [collectDeps]
    cases hsd : stmtDeps parts st₀ with
    | error e =>
      exact absurd ((stmtDeps_error_iff parts st₀).1 ⟨e, hsd⟩)
        (hok st₀ (List.mem_cons_self _ _))
    | ok ns =>
      obtain ⟨ds, hds⟩ := ih (fun st hst => hok st (List.mem_cons_of_mem _ hst))
      rw [hds]
      exact ⟨ns.union ds, rfl⟩

theorem list_dependencies_unreadable (fs : FsPath → Except Unit (List Stmt))
    (file : FsPath) (package : Option String) (h : fs file = .error ()) :
    list_dependencies fs file package = .error .unreadable := by
  unfold list_dependencies
  rw [h]

theorem list_dependencies_assert (fs : FsPath → Except Unit (List Stmt))
    (file : FsPath) (package : Option String) (stmts : List Stmt)
    (hfs : fs file = .ok stmts) :
    ((∃ st ∈ stmts, violatesLevel (contextParts file package) st) →
      list_dependencies fs file package = .error .assertionError) ∧
    ((∀ st ∈ stmts, ¬violatesLevel (contextParts file package) st) →
      list_dependencies fs file package ≠ .error .assertionError) := by
  constructor
  · intro hviol
    unfold list_dependencies
    rw [hfs]
    show (match collectDeps (contextParts file package) stmts with
      | Except.error e => Except.error e
      | Except.ok ds =>
        Except.ok (ds.union (List.map prefixClosure ds).flatten)) =
      Except.error ExtractError.assertionError
    rw [collectDeps_error_of_violation (contextParts file package) stmts hviol]
  · intro hok
    obtain ⟨ds, hds⟩ :=
      collectDeps_ok_of_no_violation (contextParts file package) stmts hok
    unfold list_dependencies
    rw [hfs]
    show (match collectDeps (contextParts file package) stmts with
      | Except.error e => Except.error e
      | Except.ok ds =>
        Except.ok (ds.union (List.map prefixClosure ds).flatten)) ≠
      Except.error ExtractError.assertionError
    rw [hds]
    intro hc
    cases hc

theorem step1P_error_mem (fs : FsPath → Except Unit (List Stmt))
    (cf : Finset FsPath) (r : String → Option FsPath)
    (gname : FsPath → Option String) :
    ∀ (ts : List FsPath) (sel : Finset FsPath) (q : List (FsPath × Frontier))
      (t : FsPath) (et : ExtractError),
      t ∈ ts → list_dependencies fs t (gname t) = .error et →
      ∃ e, step1P fs cf r gname ts sel q = .error e := by
  intro ts
  induction ts with
  | nil =>
    intro sel q t et ht _
    simp at ht
  | cons t₀ rest ih =>
    intro sel q t et ht herr
    simp only [step1P]
    cases hdep : list_dependencies fs t₀ (gname t₀) with
    | error e => exact ⟨e, rfl⟩
    | ok deps =>
      rcases List.mem_cons.1 ht with hc | hc
      · subst hc
        rw [herr] at hdep
        cases hdep
      · exact ih _ _ t et hc herr

theorem scanDepsP_all_none (cf : Finset FsPath) (r : String → Option FsPath) :
    ∀ (ns : List String) (acc : Frontier),
      (∀ n ∈ ns, r n = none) → scanDepsP cf r ns acc = (false, acc) := by
  intro ns
  induction ns with
  | nil => intro acc _; rfl
  | cons n rest ih =>
    intro acc hnone
    have h0 : r n = none := hnone n (List.mem_cons_self _ _)
    simp only [scanDepsP, h0]
    exact ih acc fun m hm => hnone m (List.mem_cons_of_mem _ hm)

theorem scanDepsP_all_resolve (cf : Finset FsPath) (r : String → Option FsPath)
    (B : FsPath) (hB : B ∉ cf) :
    ∀ (ns : List String) (acc : Frontier),
      (∀ n ∈ ns, r n = some B) →
      (scanDepsP cf r ns acc).1 = false ∧
      (∀ e ∈ (scanDepsP cf r ns acc).2, e ∈ acc ∨ (e.1 ∈ ns ∧ e.2 = B)) ∧
      (acc ≠ [] → (scanDepsP cf r ns acc).2 ≠ []) ∧
      (ns ≠ [] → (scanDepsP cf r ns acc).2 ≠ []) := by
  intro ns
  induction ns with
  | nil =>
    intro acc _
    exact ⟨rfl, fun e he => Or.inl he, fun h => h, fun h => absurd rfl h⟩
  | cons n rest ih =>
    intro acc hres
    have h0 : r n = some B := hres n (List.mem_cons_self _ _)
    simp only [scanDepsP, h0, hB, if_false]
    obtain ⟨ih1, ih2, ih3, _⟩ := ih (acc.insert (n, B))
      (fun m hm => hres m (List.mem_cons_of_mem _ hm))
    have hins : acc.insert (n, B) ≠ [] := by
      by_cases hmem : (n, B) ∈ acc
      · rw [List.insert_of_mem hmem]
        intro hc
        rw [hc] at hmem
        simp at hmem
      · rw [List.insert_of_not_mem hmem]
        intro hc
        cases hc
    refine ⟨ih1, ?_, fun _ => ih3 hins, fun _ => ih3 hins⟩
    intro e he
    rcases ih2 e he with hc | hc
    · rw [List.mem_insert_iff] at hc
      rcases hc with hc | hc
      · subst hc
        exact Or.inr ⟨List.mem_cons_self _ _, rfl⟩
      · exact Or.inl hc
    · exact Or.inr ⟨List.mem_cons_of_mem _ hc.1, hc.2⟩

theorem scanDepsP_head_hit (cf : Finset FsPath) (r : String → Option FsPath)
    (n : String) (rest : List String) (acc : Frontier) (f : FsPath)
    (hr : r n = some f) (hf : f ∈ cf) :
    scanDepsP cf r (n :: rest) acc = (true, acc) := by
  simp only [scanDepsP, hr, hf, if_true]

theorem scanSubsP_head_hit (cf : Finset FsPath) (r : String → Option FsPath)
    (expl : Finset FsPath) (m : String) (rest : List String) (acc : Frontier)
    (f : FsPath) (hr : r m = some f) (hf : f ∈ cf) :
    scanSubsP cf r expl (m :: rest) acc = (true, acc) := by
  simp only [scanSubsP, hr, hf, if_true]

theorem scanFrontierP_skip_all (fs : FsPath → Except Unit (List Stmt))
    (cf : Finset FsPath) (r : String → Option FsPath) :
    ∀ (entries : List (String × FsPath)) (expl : Finset FsPath) (hit : Bool)
      (acc : Frontier),
      (∀ e ∈ entries, e.2 ∈ expl) →
      scanFrontierP fs cf r entries expl hit acc = .ok (hit, acc, expl) := by
  intro entries
  induction entries with
  | nil => intro expl hit acc _; rfl
  | cons e rest ih =>
    intro expl hit acc hall
    obtain ⟨n, f⟩ := e
    have hf : f ∈ expl := hall (n, f) (List.mem_cons_self _ _)
    simp only [scanFrontierP, hf, if_true]
    exact ih expl hit acc fun e he => hall e (List.mem_cons_of_mem _ he)

deriving instance DecidableEq for Except

theorem scanFrontierP_chain (fs : FsPath → Except Unit (List Stmt))
    (cf : Finset FsPath) (r : String → Option FsPath) (B C : FsPath)
    (hC : C ∈ cf) (entries : List (String × FsPath)) (hne : entries ≠ [])
    (hall : ∀ e ∈ entries, e.2 = B ∧ ∃ dBn,
      list_dependencies fs B (some e.1) = .ok dBn ∧ dBn ≠ [] ∧
      ∀ m ∈ dBn, r m = some C) :
    scanFrontierP fs cf r entries ∅ false [] = .ok (true, [], insert B ∅) := by
  cases entries with
  | nil => exact absurd rfl hne
  | cons e rest =>
    obtain ⟨n, f⟩ := e
    obtain ⟨hfB, dBn, hdep, hdne, hres⟩ := hall (n, f) (List.mem_cons_self _ _)
    simp only at hfB
    subst hfB
    obtain ⟨m, ms, hdBn⟩ : ∃ m ms, dBn = m :: ms := by
      cases dBn with
      | nil => exact absurd rfl hdne
      | cons m ms => exact ⟨m, ms, rfl⟩
    have hhit : scanSubsP cf r ∅ dBn [] = (true, []) := by
      rw [hdBn]
      exact scanSubsP_head_hit cf r ∅ m ms [] C
        (hres m (by rw [hdBn]; exact List.mem_cons_self _ _)) hC
    simp only [scanFrontierP, Finset.not_mem_empty, if_false, hdep, hhit]
    exact scanFrontierP_skip_all fs cf r rest (insert f ∅) true []
      (fun e he => by rw [(hall e (List.mem_cons_of_mem _ he)).1]; simp)

theorem assoc_singleton {κ ν : Type} [DecidableEq κ]
    (q : List (κ × ν)) (k : κ) (v : ν) (hnd : (keysOf q).Nodup)
    (hsub : ∀ x ∈ keysOf q, x = k) (hk : alookup q k = some v) :
    q = [(k, v)] := by
  cases q with
  | nil => simp at hk
  | cons kv rest =>
    obtain ⟨k0, v0⟩ := kv
    have hk0 : k0 = k := hsub k0 (by rw [keysOf_cons]; exact List.mem_cons_self _ _)
    subst hk0
    have hrest : keysOf rest = [] := by
      rw [keysOf_cons] at hnd
      rw [List.nodup_cons] at hnd
      cases hr : keysOf rest with
      | nil => rfl
      | cons x xs =>
        have hx : x = k0 := hsub x
          (by rw [keysOf_cons, hr]; exact List.mem_cons_of_mem _ (List.mem_cons_self _ _))
        subst hx
        exfalso
        apply hnd.1
        rw [hr]
        exact List.mem_cons_self _ _
    have hrest' : rest = [] := by
      cases rest with
      | nil => rfl
      | cons a b => simp [keysOf] at hrest
    subst hrest'
    rw [alookup_cons, if_pos rfl] at hk
    injection hk with hk
    rw [hk]

/-! ### The claims -/

/-- C1: for every target-file set, changed-file set and registry, every
target file that is itself a member of the changed-file set is contained in
the selection returned by `select_files` (direct hits are selected in step
0, before any expansion). -/
theorem claim_C1 (env : Env) (tf : List FsPath) (cf : Finset FsPath)
    (reg : ModulesRegistry) (s : Finset FsPath)
    (h : select_files env tf cf reg = .ok s) :
    ∀ t ∈ tf, t ∈ cf → t ∈ s := by
  rw [select_files_eq] at h
  exact select_filesP_direct env.fs cf (resolve env reg) reg.get_name tf s h

/-- C2: whenever `select_files` returns a selection, it reached the fixed
point (empty queue) within the 100-round cap — either trivially because
every target was a direct hit, or because some round `k ≤ 100` produced an
empty queue with exactly the returned selection.  Contrapositively, when the
cap is exceeded the run does not return a selection (it raises), never a
partial answer. -/
theorem claim_C2 (env : Env) (tf : List FsPath) (cf : Finset FsPath)
    (reg : ModulesRegistry) (s : Finset FsPath)
    (h : select_files env tf cf reg = .ok s) :
    ((tf.filter fun t =>
        t ∉ (tf.filter fun t => t ∈ cf).toFinset).isEmpty = true ∧
      s = (tf.filter fun t => t ∈ cf).toFinset) ∨
    (∃ sel1 q1, step1P env.fs cf (resolve env reg) reg.get_name
        (tf.filter fun t => t ∉ (tf.filter fun t => t ∈ cf).toFinset)
        (tf.filter fun t => t ∈ cf).toFinset [] = .ok (sel1, q1) ∧
      ∃ k ≤ 100, ∃ expl',
        roundsP env.fs cf (resolve env reg) k (sel1, fun _ => ∅, q1) =
          .ok (s, expl', [])) := by
  rw [select_files_eq] at h
  unfold select_filesP at h
  simp only at h
  by_cases hempty : (tf.filter fun t =>
      t ∉ (tf.filter fun t => t ∈ cf).toFinset).isEmpty
  · rw [if_pos hempty] at h
    injection h with h
    exact Or.inl ⟨hempty, h.symm⟩
  · rw [if_neg hempty] at h
    cases hst : step1P env.fs cf (resolve env reg) reg.get_name
        (tf.filter fun t => t ∉ (tf.filter fun t => t ∈ cf).toFinset)
        (tf.filter fun t => t ∈ cf).toFinset [] with
    | error e => rw [hst] at h; simp at h
    | ok pr =>
      obtain ⟨sel1, q1⟩ := pr
      rw [hst] at h
      replace h : loopP env.fs cf (resolve env reg) 100 sel1 (fun _ => ∅) q1 =
          .ok s := h
      obtain ⟨k, hk, expl', hr⟩ :=
        loopP_fixpoint env.fs cf (resolve env reg) 100 sel1 (fun _ => ∅) q1 s h
      exact Or.inr ⟨sel1, q1, rfl, k, hk, expl', hr⟩

/-- C3: monotonicity in the changed-file set — for a fixed target list and
registry, and changed sets `cf1 ⊆ cf2`, a selection computed for `cf1` is a
subset of a selection computed for `cf2`. -/
theorem claim_C3 (env : Env) (reg : ModulesRegistry) (tf : List FsPath)
    {cf1 cf2 : Finset FsPath} (hsub : cf1 ⊆ cf2) (s1 s2 : Finset FsPath)
    (h1 : select_files env tf cf1 reg = .ok s1)
    (h2 : select_files env tf cf2 reg = .ok s2) :
    s1 ⊆ s2 := by
  rw [select_files_eq] at h1 h2
  exact select_filesP_mono hsub env.fs (resolve env reg) reg.get_name tf
    s1 s2 h1 h2

/-- C5: ancestor-prefix closure — any set returned by `list_dependencies`
contains, for each of its dotted identifiers, every identifier produced by
the ancestor-prefix loop (`a.b.c` implies `a.b` and `a`). -/
theorem claim_C5 (fs : FsPath → Except Unit (List Stmt)) (file : FsPath)
    (package : Option String) (deps : List String)
    (h : list_dependencies fs file package = .ok deps) :
    ∀ d ∈ deps, ∀ p ∈ prefixClosure d, p ∈ deps :=
  list_dependencies_prefix_closed fs file package deps h

/-- C7: an unreadable or unparsable source file makes `list_dependencies`
fail with the unreadable error for every package context (never an empty
dependency set), and a `select_files` run that must extract that file's
dependencies surfaces an extraction error instead of returning a
selection. -/
theorem claim_C7 (env : Env) (reg : ModulesRegistry) (tf : List FsPath)
    (cf : Finset FsPath) (t : FsPath)
    (hfs : env.fs t = .error ()) (ht : t ∈ tf) (hcf : t ∉ cf) :
    (∀ p, list_dependencies env.fs t p = .error .unreadable) ∧
    ∃ e, select_files env tf cf reg = .error (SelectError.extract e) := by
  refine ⟨fun p => list_dependencies_unreadable env.fs t p hfs, ?_⟩
  rw [select_files_eq]
  unfold select_filesP
  simp only
  have htt : t ∈ tf.filter fun u => u ∉ (tf.filter fun u => u ∈ cf).toFinset := by
    rw [List.mem_filter]
    refine ⟨ht, decide_eq_true ?_⟩
    intro hc
    rw [List.mem_toFinset, List.mem_filter] at hc
    exact hcf (of_decide_eq_true hc.2)
  have hnot : ¬(tf.filter fun u =>
      u ∉ (tf.filter fun u => u ∈ cf).toFinset).isEmpty := by
    intro hc
    rw [List.isEmpty_iff.1 hc] at htt
    simp at htt
  rw [if_neg hnot]
  obtain ⟨e, he⟩ := step1P_error_mem env.fs cf (resolve env reg) reg.get_name
    (tf.filter fun u => u ∉ (tf.filter fun u => u ∈ cf).toFinset)
    (tf.filter fun u => u ∈ cf).toFinset [] t .unreadable htt
    (list_dependencies_unreadable env.fs t _ hfs)
  rw [he]
  exact ⟨e, rfl⟩

/-- C8: a relative import whose level exceeds the number of segments of the
(given or path-inferred) package context makes `list_dependencies` fail via
the internal assertion (`ExtractError.assertionError`, distinct from the
read/parse error), and when every relative import's level is within the
context, that assertion branch is unreachable. -/
theorem claim_C8 (fs : FsPath → Except Unit (List Stmt)) (file : FsPath)
    (package : Option String) (stmts : List Stmt)
    (hfs : fs file = .ok stmts) :
    ((∃ st ∈ stmts, violatesLevel (contextParts file package) st) →
      list_dependencies fs file package = .error .assertionError) ∧
    ((∀ st ∈ stmts, ¬violatesLevel (contextParts file package) st) →
      list_dependencies fs file package ≠ .error .assertionError) :=
  list_dependencies_assert fs file package stmts hfs

/-- C10: `ModulesRegistry.get` may lazily fill the forward cache
`by_fullnames` (the queried name is cached afterwards), but it never touches
`inverse`, so no `get_name` answer ever changes — the inverse mapping is
built once from the seeded snapshot. -/
theorem claim_C10 (fspec : String → Option FsPath) (reg : ModulesRegistry)
    (n : String) :
    ((ModulesRegistry.get fspec reg n).2).inverse = reg.inverse ∧
    (∀ f, ((ModulesRegistry.get fspec reg n).2).get_name f = reg.get_name f) ∧
    alookup ((ModulesRegistry.get fspec reg n).2).by_fullnames n =
      some ((ModulesRegistry.get fspec reg n).1) := by
  refine ⟨?_, ?_, ?_⟩
  · unfold ModulesRegistry.get
    cases alookup reg.by_fullnames n <;> rfl
  · intro f
    unfold ModulesRegistry.get ModulesRegistry.get_name
    cases alookup reg.by_fullnames n <;> rfl
  · unfold ModulesRegistry.get
    cases hc : alookup reg.by_fullnames n with
    | some cached => exact hc
    | none =>
      simp only
      rw [alookup_append_single _ n n _ (not_mem_keys_of_alookup_eq_none hc),
        if_pos rfl]

/-- C6: isolation — a target all of whose extracted imports fail to resolve
to a project file is dropped after step 1 (never queued) and is selected iff
it is itself changed. -/
theorem claim_C6 (env : Env) (reg : ModulesRegistry) (tf : List FsPath)
    (cf : Finset FsPath) (t : FsPath) (deps : List String) (s : Finset FsPath)
    (ht : t ∈ tf)
    (h : select_files env tf cf reg = .ok s)
    (hdep : list_dependencies env.fs t (reg.get_name t) = .ok deps)
    (hnone : ∀ n ∈ deps, resolve env reg n = none) :
    t ∈ s ↔ t ∈ cf := by
  constructor
  · intro hts
    by_contra hcf
    rw [select_files_eq] at h
    have ht0 : t ∉ (tf.filter fun u => u ∈ cf).toFinset := by
      intro hc
      rw [List.mem_toFinset, List.mem_filter] at hc
      exact hcf (of_decide_eq_true hc.2)
    have htt : t ∈ tf.filter fun u =>
        u ∉ (tf.filter fun u => u ∈ cf).toFinset := by
      rw [List.mem_filter]
      exact ⟨ht, decide_eq_true ht0⟩
    unfold select_filesP at h
    simp only at h
    have hnot : ¬(tf.filter fun u =>
        u ∉ (tf.filter fun u => u ∈ cf).toFinset).isEmpty := by
      intro hc
      rw [List.isEmpty_iff.1 hc] at htt
      simp at htt
    rw [if_neg hnot] at h
    cases hst : step1P env.fs cf (resolve env reg) reg.get_name
        (tf.filter fun u => u ∉ (tf.filter fun u => u ∈ cf).toFinset)
        (tf.filter fun u => u ∈ cf).toFinset [] with
    | error e => rw [hst] at h; simp at h
    | ok pr =>
      obtain ⟨sel1, q1⟩ := pr
      rw [hst] at h
      replace h : loopP env.fs cf (resolve env reg) 100 sel1 (fun _ => ∅) q1 =
          .ok s := h
      obtain ⟨deps', hdep', hsel, hq⟩ :=
        (step1P_char env.fs cf (resolve env reg) reg.get_name _ _ _ _ _ hst
          t).2 htt
      rw [hdep] at hdep'
      injection hdep' with hdep'
      subst hdep'
      have hscan := scanDepsP_all_none cf (resolve env reg) deps [] hnone
      have hts1 : t ∉ sel1 := by
        intro hc
        rcases hsel.1 hc with hc' | hc'
        · exact ht0 hc'
        · rw [hscan] at hc'
          cases hc'
      have hq1 : alookup q1 t = none := by
        rw [hq, hscan]
        simp
      rcases loopP_sel_sub env.fs cf (resolve env reg) 100 sel1 (fun _ => ∅)
        q1 s h t hts with hc | hc
      · exact hts1 hc
      · have := (alookup_isSome_iff_mem_keys q1 t).2 hc
        rw [hq1] at this
        exact absurd this (by simp)
  · intro hcf
    rw [select_files_eq] at h
    exact select_filesP_direct env.fs cf (resolve env reg) reg.get_name tf s
      h t ht hcf

/-- C9: invariants of a run — a returned selection is a subset of the input
target list; within a round the selection only ever grows; and a queued
target that is already selected is skipped by the round (their combination
is the source's "once selected, never reconsidered" discipline). -/
theorem claim_C9 (env : Env) (reg : ModulesRegistry) (tf : List FsPath)
    (cf : Finset FsPath) :
    (∀ s, select_files env tf cf reg = .ok s → ∀ x ∈ s, x ∈ tf) ∧
    (∀ (reg' : ModulesRegistry) q sel expl nq res reg'',
      roundStep env cf reg' q sel expl nq = .ok (res, reg'') → sel ⊆ res.1) ∧
    (∀ (reg' : ModulesRegistry) t deps q sel expl nq, t ∈ sel →
      roundStep env cf reg' ((t, deps) :: q) sel expl nq =
        roundStep env cf reg' q sel expl nq) := by
  refine ⟨?_, ?_, ?_⟩
  · intro s h
    rw [select_files_eq] at h
    exact select_filesP_sub env.fs cf (resolve env reg) reg.get_name tf s h
  · intro reg' q sel expl nq res reg'' hok
    obtain ⟨hm, _⟩ := roundStep_sim env cf q reg' sel expl nq
      (stable_rfl env reg')
    rw [hok] at hm
    simp only [Except.map] at hm
    exact roundStepP_sel_mono env.fs cf (resolve env reg') q sel expl nq
      res.1 res.2.1 res.2.2 hm.symm
  · intro reg' t deps q sel expl nq hts
    simp [roundStep, hts]

theorem loopP_succ (fs : FsPath → Except Unit (List Stmt))
    (cf : Finset FsPath) (r : String → Option FsPath) (fuel : Nat)
    (sel : Finset FsPath) (expl : FsPath → Finset FsPath)
    (q : List (FsPath × Frontier)) :
    loopP fs cf r (fuel + 1) sel expl q =
      match roundStepP fs cf r q sel expl [] with
      | .error e => .error (.extract e)
      | .ok (sel', expl', q') =>
        if q'.isEmpty then .ok sel' else loopP fs cf r fuel sel' expl' q' :=
  rfl

/-- C4: transitive propagation through one intermediate file — with targets
`A` and `B`, where every extracted import of `A` resolves to `B`'s file,
every extracted import of `B` (in either package context the run uses)
resolves to `C`'s file, and only `C`'s file is changed, `select_files`
selects exactly `A` and `B`: `B` via its direct import in step 1, `A` via
the round-1 expansion of its recorded frontier edge. -/
theorem claim_C4 (env : Env) (reg : ModulesRegistry) (A B C : FsPath)
    (dA dB : List String)
    (hAB : A ≠ B) (hAC : A ≠ C) (hBC : B ≠ C)
    (hdA : list_dependencies env.fs A (reg.get_name A) = .ok dA)
    (hdAne : dA ≠ [])
    (hrA : ∀ n ∈ dA, resolve env reg n = some B)
    (hdB : list_dependencies env.fs B (reg.get_name B) = .ok dB)
    (hdBne : dB ≠ [])
    (hrB : ∀ m ∈ dB, resolve env reg m = some C)
    (hsub : ∀ n ∈ dA, ∃ dBn, list_dependencies env.fs B (some n) = .ok dBn ∧
      dBn ≠ [] ∧ ∀ m ∈ dBn, resolve env reg m = some C) :
    select_files env [A, B] {C} reg = .ok {A, B} := by
  rw [select_files_eq]
  have hBC' : B ∉ ({C} : Finset FsPath) := by simp [hBC]
  have hCin : C ∈ ({C} : Finset FsPath) := Finset.mem_singleton_self C
  obtain ⟨hA1, hA2, _, hA4⟩ :=
    scanDepsP_all_resolve {C} (resolve env reg) B hBC' dA [] hrA
  have haccne : (scanDepsP {C} (resolve env reg) dA []).2 ≠ [] := hA4 hdAne
  obtain ⟨m, ms, hdBeq⟩ : ∃ m ms, dB = m :: ms := by
    cases dB with
    | nil => exact absurd rfl hdBne
    | cons m ms => exact ⟨m, ms, rfl⟩
  have hBhit : scanDepsP {C} (resolve env reg) dB [] = (true, []) := by
    rw [hdBeq]
    exact scanDepsP_head_hit {C} (resolve env reg) m ms [] C
      (hrB m (by rw [hdBeq]; exact List.mem_cons_self _ _)) hCin
  have hfilter1 : (([A, B] : List FsPath).filter
      fun t => t ∈ ({C} : Finset FsPath)) = [] := by
    simp [List.filter, hAC, hBC]
  have hstep : step1P env.fs {C} (resolve env reg) reg.get_name [A, B] ∅ [] =
      .ok (insert B ∅,
        [(A, (scanDepsP {C} (resolve env reg) dA []).2)]) := by
    simp only [step1P, hdA, hdB, hBhit, hA1]
    rw [if_pos haccne]
    simp [assocUpd, alookup]
  have hAnotsel : A ∉ (insert B ∅ : Finset FsPath) := by simp [hAB]
  have hchain : scanFrontierP env.fs {C} (resolve env reg)
      (scanDepsP {C} (resolve env reg) dA []).2 ∅ false [] =
      .ok (true, [], insert B ∅) := by
    refine scanFrontierP_chain env.fs {C} (resolve env reg) B C hCin _
      haccne ?_
    intro e he
    rcases hA2 e he with hc | hc
    · simp at hc
    · exact ⟨hc.2, hsub e.1 hc.1⟩
  have hround : roundStepP env.fs {C} (resolve env reg)
      [(A, (scanDepsP {C} (resolve env reg) dA []).2)] (insert B ∅)
      (fun _ => ∅) [] =
      .ok (insert A (insert B ∅),
        fun x => if x = A then insert B ∅ else ∅, []) := by
    simp only [roundStepP]
    rw [if_neg hAnotsel, hchain]
    simp [roundStepP]
  have hloop : loopP env.fs {C} (resolve env reg) 100 (insert B ∅)
      (fun _ => ∅) [(A, (scanDepsP {C} (resolve env reg) dA []).2)] =
      .ok (insert A (insert B ∅)) := by
    have h100 : (100 : Nat) = 99 + 1 := rfl
    rw [h100, loopP_succ, hround]
    rfl
  unfold select_filesP
  simp only [hfilter1, List.toFinset_nil]
  have hfilter2 : (([A, B] : List FsPath).filter
      fun t => t ∉ (∅ : Finset FsPath)) = [A, B] := by
    simp
  rw [hfilter2]
  simp only [List.isEmpty_cons, if_false]
  rw [hstep]
  show loopP env.fs {C} (resolve env reg) 100 (insert B ∅) (fun _ => ∅)
    [(A, (scanDepsP {C} (resolve env reg) dA []).2)] = .ok {A, B}
  rw [hloop]
  congr 1

/-! ### Concrete instances -/

/-- A small concrete project for exercising the theorems: `t.py` imports the
resolvable `m`; `u.py` imports only the unresolvable `x`; `bad.py` is
unreadable; `rel.py` holds a level-5 relative import; `d.py` imports the
dotted `a.b.c`; and `a.py` imports `b` whose file `b.py` imports `c`. -/
def envW : Env where
  fs := fun f =>
    if f = ["t.py"] then .ok [Stmt.imp ["m"]]
    else if f = ["u.py"] then .ok [Stmt.imp ["x"]]
    else if f = ["bad.py"] then .error ()
    else if f = ["rel.py"] then .ok [Stmt.fromImp none ["y"] 5]
    else if f = ["d.py"] then .ok [Stmt.imp ["a.b.c"]]
    else if f = ["a.py"] then .ok [Stmt.imp ["b"]]
    else if f = ["b.py"] then .ok [Stmt.imp ["c"]]
    else .ok []
  findSpec := fun n =>
    if n = "m" then some ["m.py"]
    else if n = "b" then some ["b.py"]
    else if n = "c" then some ["c.py"]
    else none

/-- An empty seeded registry. -/
def regW : ModulesRegistry := mkRegistry []

theorem claim_C1_witness :
    select_files envW [["m.py"]] {["m.py"]} regW = .ok {["m.py"]} ∧
    ["m.py"] ∈ ({["m.py"]} : Finset FsPath) :=
  ⟨by decide, claim_C1 envW [["m.py"]] {["m.py"]} regW {["m.py"]} (by decide)
    ["m.py"] (by decide) (by decide)⟩

theorem claim_C3_witness :
    select_files envW [["t.py"]] (∅ : Finset FsPath) regW = .ok ∅ ∧
    select_files envW [["t.py"]] {["m.py"]} regW = .ok {["t.py"]} ∧
    (∅ : Finset FsPath) ⊆ {["t.py"]} :=
  ⟨by decide, by decide,
    @claim_C3 envW regW [["t.py"]] ∅ {["m.py"]} (by decide) ∅ {["t.py"]}
      (by decide) (by decide)⟩

theorem claim_C2_witness :
    ((([["t.py"]] : List FsPath).filter fun t =>
        t ∉ (([["t.py"]] : List FsPath).filter fun t =>
          t ∈ ({["m.py"]} : Finset FsPath)).toFinset).isEmpty = true ∧
      ({["t.py"]} : Finset FsPath) =
        (([["t.py"]] : List FsPath).filter fun t =>
          t ∈ ({["m.py"]} : Finset FsPath)).toFinset) ∨
    (∃ sel1 q1, step1P envW.fs {["m.py"]} (resolve envW regW) regW.get_name
        (([["t.py"]] : List FsPath).filter fun t =>
          t ∉ (([["t.py"]] : List FsPath).filter fun t =>
            t ∈ ({["m.py"]} : Finset FsPath)).toFinset)
        (([["t.py"]] : List FsPath).filter fun t =>
          t ∈ ({["m.py"]} : Finset FsPath)).toFinset [] = .ok (sel1, q1) ∧
      ∃ k ≤ 100, ∃ expl',
        roundsP envW.fs {["m.py"]} (resolve envW regW) k
          (sel1, fun _ => ∅, q1) = .ok ({["t.py"]}, expl', [])) :=
  claim_C2 envW [["t.py"]] {["m.py"]} regW {["t.py"]} (by decide)

theorem claim_C4_witness :
    select_files envW [["a.py"], ["b.py"]] {["c.py"]} regW =
      .ok {["a.py"], ["b.py"]} :=
  claim_C4 envW regW ["a.py"] ["b.py"] ["c.py"] ["b"] ["c"]
    (by decide) (by decide) (by decide)
    (by decide) (by decide) (by decide)
    (by decide) (by decide) (by decide)
    (by
      intro n hn
      have hb : n = "b" := by simpa using hn
      subst hb
      exact ⟨["c"], by decide, by decide, by decide⟩)

theorem claim_C5_witness :
    list_dependencies envW.fs ["d.py"] none = .ok ["a.b.c", "a.b", "a"] ∧
    "a.b" ∈ ["a.b.c", "a.b", "a"] :=
  ⟨by decide, claim_C5 envW.fs ["d.py"] none ["a.b.c", "a.b", "a"] (by decide)
    "a.b.c" (by decide) "a.b" (by decide)⟩

theorem claim_C6_witness :
    (["u.py"] ∈ ({["t.py"]} : Finset FsPath) ↔
      ["u.py"] ∈ ({["m.py"]} : Finset FsPath)) :=
  claim_C6 envW regW [["t.py"], ["u.py"]] {["m.py"]} ["u.py"] ["x"]
    {["t.py"]} (by decide) (by decide) (by decide) (by decide)

theorem claim_C7_witness :
    (∀ p, list_dependencies envW.fs ["bad.py"] p =
      .error ExtractError.unreadable) ∧
    ∃ e, select_files envW [["bad.py"]] ∅ regW =
      .error (SelectError.extract e) :=
  claim_C7 envW regW [["bad.py"]] ∅ ["bad.py"] (by decide) (by decide)
    (by decide)

theorem claim_C8_witness :
    list_dependencies envW.fs ["rel.py"] none =
      .error ExtractError.assertionError :=
  (claim_C8 envW.fs ["rel.py"] none [Stmt.fromImp none ["y"] 5] (by decide)).1
    ⟨Stmt.fromImp none ["y"] 5, by decide, by decide⟩

theorem claim_C9_witness :
    ∀ x ∈ ({["t.py"]} : Finset FsPath), x ∈ [["t.py"]] :=
  (claim_C9 envW regW [["t.py"]] {["m.py"]}).1 {["t.py"]} (by decide)
